import Mathlib

/-!
# goat-router: a shallow embedding of the trie router

The development follows `router/node.go`, `router/group.go` and
`router/router.go`.

* Go strings are modelled as lists of characters (`Str`).  The only bytes the
  router inspects are the ASCII characters `/`, `:` and `.`.
* Go maps are modelled as association lists with unique keys (`mapGet`,
  `mapSet`); the position of a key in the list plays no role in lookups.
* A `HandlerFunc` may be `nil` in Go; it is modelled by `Option`, `none`
  being `nil`.  A handler is a side-effecting procedure, modelled as a
  transformer of an abstract world `W`.
* The pointer-based trie is a tree (nodes are only ever created by `NewNode`
  inside `AddRoute`), so in-place mutation is modelled by rebuilding the
  path from the root.
-/

set_option autoImplicit false

namespace GoatRouter

/-- Go `string`. -/
abbrev Str := List Char

/-! ## Standard-library functions used by the router -/

/-- Model of Go `strings.Split(s, "/")`: the pieces of `s` between the
separators, in order; a string without separator gives one piece. -/
def Split : Str → List Str
  | [] => [[]]
  | c :: cs =>
    if c = '/' then [] :: Split cs
    else
      match Split cs with
      | [] => [[c]]
      | x :: xs => (c :: x) :: xs

/-- The first loop of `AddRoute` and `FindHandler`: keep the non-empty parts
(`path.Clean` skips empty elements in the same way). -/
def sanitize : List Str → List Str
  | [] => []
  | part :: rest => if part ≠ [] then part :: sanitize rest else sanitize rest

/-- One step of Go `path.Clean` on the stack of elements written so far
(most recent first): `.` is dropped, `..` removes the last real element, is
dropped at the root of a rooted path and is kept at the front of a relative
path; any other element is appended. -/
def cleanStep (rooted : Bool) (stk : List Str) (s : Str) : List Str :=
  if s = ['.'] then stk
  else if s = ['.', '.'] then
    match stk with
    | [] => if rooted then [] else [['.', '.']]
    | t :: rest =>
      if t = ['.', '.'] then (if rooted then stk else ['.', '.'] :: stk) else rest
  else s :: stk

/-- The elements `path.Clean` keeps, in order. -/
def cleanSegs (rooted : Bool) (segs : List Str) : List Str :=
  (segs.foldl (cleanStep rooted) []).reverse

/-- Writes elements separated by single slashes. -/
def joinSlash : List Str → Str
  | [] => []
  | [s] => s
  | s :: t :: rest => s ++ '/' :: joinSlash (t :: rest)

/-- Whether a path starts with a slash. -/
def isRooted (path : Str) : Bool := path.head? = some '/'

/-- Model of Go `path.Clean`: the shortest equivalent path.  Repeated slashes
collapse, `.` elements disappear, inner `..` elements cancel the element before
them, `..` at the start of a rooted path disappears, and the empty result is
written `.`. -/
def Clean (path : Str) : Str :=
  if path = [] then ['.']
  else
    let rooted := isRooted path
    let out := cleanSegs rooted (sanitize (Split path))
    if rooted then '/' :: joinSlash out
    else if out = [] then ['.'] else joinSlash out

/-- The buffer loop of Go `path.Join`: non-empty elements (and every element
after the first written one) are appended, separated by a slash. -/
def joinBuf : Str → List Str → Str
  | buf, [] => buf
  | buf, e :: es =>
    if buf ≠ [] ∨ e ≠ [] then
      joinBuf ((if buf ≠ [] then buf ++ ['/'] else buf) ++ e) es
    else joinBuf buf es

/-- Model of Go `path.Join(elem...)`: empty when every element is empty,
otherwise the cleaned concatenation. -/
def Join (elem : List Str) : Str :=
  if (elem.map List.length).sum = 0 then [] else Clean (joinBuf [] elem)

/-- Model of Go `strings.HasPrefix(part, ":")`. -/
def hasColon (part : Str) : Bool := part.head? = some ':'

/-! ## Maps -/

/-- Map lookup `m[k]` with the comma-ok result. -/
def mapGet {V : Type} : List (Str × V) → Str → Option V
  | [], _ => none
  | (k, v) :: rest, key => if k = key then some v else mapGet rest key

/-- Map assignment `m[k] = v`. -/
def mapSet {V : Type} : List (Str × V) → Str → V → List (Str × V)
  | [], key, v => [(key, v)]
  | (k, w) :: rest, key, v =>
    if k = key then (k, v) :: rest else (k, w) :: mapSet rest key v

/-! ## `router/node.go` -/

/-- A trie vertex: `children`, `isEnd`, `handlers`, `parameterName`. -/
inductive Node (H : Type) where
  | mk (children : List (Str × Node H)) (isEnd : Bool)
      (handlers : List (Str × H)) (parameterName : Str) : Node H

namespace Node

variable {H : Type}

/-- Field `children`. -/
def children : Node H → List (Str × Node H)
  | mk c _ _ _ => c

/-- Field `isEnd`. -/
def isEnd : Node H → Bool
  | mk _ e _ _ => e

/-- Field `handlers`. -/
def handlers : Node H → List (Str × H)
  | mk _ _ h _ => h

/-- Field `parameterName`. -/
def parameterName : Node H → Str
  | mk _ _ _ p => p

end Node

/-- Constructor `NewNode`: empty maps, `isEnd = false`, empty name. -/
def NewNode {H : Type} : Node H := Node.mk [] false [] []

/-- The reserved key of the parameter edge. -/
def paramKey : Str := [':', 'p', 'a', 'r', 'a', 'm']

/-! ## `router/router.go` -/

/-- Parameter bindings `map[string]string`. -/
abbrev HandlerParams := List (Str × Str)

/-- A non-nil handler: a procedure on the parameters and the environment,
acting on the world. -/
abbrev Fn (Env W : Type) := HandlerParams → Env → W → W

/-- Go `HandlerFunc`; `none` is `nil`. -/
abbrev HandlerFunc (Env W : Type) := Option (Fn Env W)

/-- Go `MiddlewareFunc`: it receives the continuation `next` (possibly `nil`)
and decides whether to invoke it. -/
abbrev MiddlewareFunc (Env W : Type) := HandlerParams → Env → HandlerFunc Env W → W → W

/-- The `Router` struct. -/
structure Router (Env W : Type) where
  root : Node (HandlerFunc Env W)
  groupBasePath : Str
  globalMiddleware : List (MiddlewareFunc Env W)
  groupMiddleware : List (MiddlewareFunc Env W)

section

variable {Env W : Type}

/-- Constructor `NewRouter`: a fresh root, every other field zero. -/
def NewRouter : Router Env W :=
  { root := NewNode, groupBasePath := [], globalMiddleware := [], groupMiddleware := [] }

/-- The descending loop of `wrapWithMiddleware`, `k = i + 1` iterations left:
iteration `i` replaces `handler` by a closure calling `allMiddleware[i]` with the
previous `handler` as `next`. -/
def wrapLoop (allMiddleware : List (MiddlewareFunc Env W)) :
    Nat → HandlerFunc Env W → HandlerFunc Env W
  | 0, handler => handler
  | i + 1, handler =>
    match allMiddleware[i]? with
    | some middleware =>
      wrapLoop allMiddleware i (some (fun params env => middleware params env handler))
    | none => wrapLoop allMiddleware i handler

/-- Method `wrapWithMiddleware`. -/
def wrapWithMiddleware (r : Router Env W) (handler : HandlerFunc Env W) : HandlerFunc Env W :=
  let allMiddleware := r.globalMiddleware ++ r.groupMiddleware
  wrapLoop allMiddleware allMiddleware.length handler

/-- The second loop and the tail of `AddRoute`, from the node reached so far:
walk the parts, creating nodes as needed, then mark the end and store the
handler for the method. -/
def addWalk {H : Type} (method : Str) (handler : H) : List Str → Node H → Node H
  | [], node => Node.mk node.children true (mapSet node.handlers method handler) node.parameterName
  | part :: rest, node =>
    if part = [] then addWalk method handler rest node
    else
      let key := if hasColon part then paramKey else part
      let name := if hasColon part then part.tail else node.parameterName
      let child := match mapGet node.children key with
        | some c => c
        | none => NewNode
      Node.mk (mapSet node.children key (addWalk method handler rest child))
        node.isEnd node.handlers name

/-- Method `AddRoute`. -/
def AddRoute (r : Router Env W) (method : Str) (path : Str) (handler : HandlerFunc Env W) :
    Router Env W :=
  let fullPath := Join [r.groupBasePath, path]
  let pathParts := Split fullPath
  let sanitizedParts := sanitize pathParts
  { r with root := addWalk method (wrapWithMiddleware r handler) sanitizedParts r.root }

/-- Method `Use`. -/
def Use (r : Router Env W) (middleware : MiddlewareFunc Env W) : Router Env W :=
  { r with globalMiddleware := r.globalMiddleware ++ [middleware] }

/-- Method `Group.Use` of `router/group.go`: the handle points at the
`groupMiddleware` field of its router, whatever that field holds when the call
is made. -/
def GroupUse (r : Router Env W) (middleware : MiddlewareFunc Env W) : Router Env W :=
  { r with groupMiddleware := r.groupMiddleware ++ [middleware] }

/-- Method `Group`: the callback `fn` is any procedure acting on the router
(through the group handle or the router itself). -/
def Group (r : Router Env W) (basePath : Str) (fn : Router Env W → Router Env W) :
    Router Env W :=
  let originalGroupBasePath := r.groupBasePath
  let originalGroupMiddleware := r.groupMiddleware
  let r1 := { r with groupBasePath := Join [r.groupBasePath, basePath], groupMiddleware := [] }
  let r2 := fn r1
  { r2 with groupBasePath := originalGroupBasePath, groupMiddleware := originalGroupMiddleware }

/-- The lookup loop of `FindHandler`: literal child first, parameter edge
second; `none` when neither exists. -/
def findWalk {H : Type} : List Str → Node H → HandlerParams → Option (Node H) × HandlerParams
  | [], node, params => (some node, params)
  | part :: rest, node, params =>
    if part = [] then findWalk rest node params
    else
      match mapGet node.children part with
      | some child => findWalk rest child params
      | none =>
        match mapGet node.children paramKey with
        | some child => findWalk rest child (mapSet params child.parameterName part)
        | none => (none, params)

/-- Method `FindHandler`. -/
def FindHandler (r : Router Env W) (method : Str) (routePath : Str) :
    HandlerFunc Env W × HandlerParams :=
  let pathParts := Split routePath
  let sanitizedParts := sanitize pathParts
  match findWalk sanitizedParts r.root [] with
  | (none, params) => (none, params)
  | (some node, params) =>
    if node.isEnd then
      match mapGet node.handlers method with
      | some handler => (handler, params)
      | none => (none, params)
    else (none, params)

/-- A route as enumerated by `Routes`: method, path, handler. -/
abbrev Route (Env W : Type) := Str × Str × HandlerFunc Env W

mutual
/-- Method `collectRoutes`. -/
def collectRoutes {H : Type} : Node H → Str → List (Str × Str × H)
  | Node.mk children isEnd handlers _, basePath =>
    (if isEnd then handlers.map (fun mh => (mh.1, basePath, mh.2)) else [])
      ++ collectChildren children basePath
/-- The loop of `collectRoutes` over the children. -/
def collectChildren {H : Type} : List (Str × Node H) → Str → List (Str × Str × H)
  | [], _ => []
  | (part, childNode) :: rest, basePath =>
    collectRoutes childNode (Join [basePath, part]) ++ collectChildren rest basePath
end

/-- Method `Routes`. -/
def Routes (r : Router Env W) : List (Route Env W) :=
  collectRoutes r.root []

/-- Method `Mount`, from the enumeration `routes` of the other router (Go
ranges over maps in an unspecified order). -/
def MountRoutes (r : Router Env W) (basePath : Str) (routes : List (Route Env W)) :
    Router Env W :=
  let originalGroupBasePath := r.groupBasePath
  let originalGroupMiddleware := r.groupMiddleware
  let r1 := { r with groupBasePath := Join [r.groupBasePath, basePath] }
  let r2 := routes.foldl (fun acc route => AddRoute acc route.1 route.2.1 route.2.2) r1
  { r2 with groupBasePath := originalGroupBasePath, groupMiddleware := originalGroupMiddleware }

/-- Method `Mount`, with the model's enumeration order. -/
def Mount (r : Router Env W) (basePath : Str) (otherRouter : Router Env W) : Router Env W :=
  MountRoutes r basePath (Routes otherRouter)

/-- The non-empty parts of a path: what both `AddRoute` and `FindHandler`
iterate over. -/
def segments (path : Str) : List Str := sanitize (Split path)

/-- The parts of a cleaned path, from the parts of the path: the kept
elements, or the single element `.` for a relative path that cancels out. -/
def cleanOut (rooted : Bool) (segs : List Str) : List Str :=
  if rooted = false ∧ cleanSegs rooted segs = [] then [['.']] else cleanSegs rooted segs

/-- Concatenation of the elements given to `Join`. -/
def concatAll : List Str → Str
  | [] => []
  | e :: es => e ++ concatAll es

/-- The parts of all the elements given to `Join`, in order. -/
def segmentsAll : List Str → List Str
  | [] => []
  | e :: es => segments e ++ segmentsAll es

/-- A part that `path.Clean` keeps where it stands. -/
def plainPart (part : Str) : Prop := part ≠ ['.'] ∧ part ≠ ['.', '.']

instance (part : Str) : Decidable (plainPart part) :=
  inferInstanceAs (Decidable (part ≠ ['.'] ∧ part ≠ ['.', '.']))

/-- The shape of the stack of `path.Clean`: real elements on top of a run of
`..` elements, which is empty for a rooted path. -/
def NormalStk (r : Bool) (s : List Str) : Prop :=
  ∃ reals dd, s = reals ++ dd ∧ (∀ x, x ∈ reals → plainPart x) ∧
    (∀ x, x ∈ dd → x = ['.', '.']) ∧ (r = true → dd = [])

/-- The key under which `AddRoute` stores a part. -/
def routeKey (part : Str) : Str := if hasColon part then paramKey else part

/-- Follows the edges with the given keys. -/
def descend {H : Type} : List Str → Node H → Option (Node H)
  | [], node => some node
  | key :: rest, node =>
    match mapGet node.children key with
    | some child => descend rest child
    | none => none

/-- The node is the end of a route and holds, for the method, a handler with
property `P`. -/
def Serves {H : Type} (P : H → Prop) (method : Str) (node : Node H) : Prop :=
  node.isEnd = true ∧ ∃ h, mapGet node.handlers method = some h ∧ P h

/-- Every edge key in the trie is the reserved key or does not start with the
parameter sigil. -/
inductive KeysOK {H : Type} : Node H → Prop
  | mk (children : List (Str × Node H)) (isEnd : Bool) (handlers : List (Str × H))
      (parameterName : Str) :
      (∀ kc, kc ∈ children → (kc.1 = paramKey ∨ hasColon kc.1 = false)) →
      (∀ kc, kc ∈ children → KeysOK kc.2) →
      KeysOK (Node.mk children isEnd handlers parameterName)

/-- The procedures a `Group` callback (or a whole program) can run on the
router: sequences of `AddRoute`, `Use`, `Group.Use`, nested `Group` and
`Mount` of a router built the same way from `NewRouter`. -/
inductive Callback : (Router Env W → Router Env W) → Prop
  | done : Callback (fun r => r)
  | addRoute (f : Router Env W → Router Env W) (method path : Str) (handler : HandlerFunc Env W) :
      Callback f → Callback (fun r => AddRoute (f r) method path handler)
  | use (f : Router Env W → Router Env W) (middleware : MiddlewareFunc Env W) :
      Callback f → Callback (fun r => Use (f r) middleware)
  | groupUse (f : Router Env W → Router Env W) (middleware : MiddlewareFunc Env W) :
      Callback f → Callback (fun r => GroupUse (f r) middleware)
  | group (f g : Router Env W → Router Env W) (basePath : Str) :
      Callback f → Callback g → Callback (fun r => Group (f r) basePath g)
  | mount (f g : Router Env W → Router Env W) (basePath : Str) (routes : List (Route Env W)) :
      Callback f → Callback g → routes.Perm (Routes (g NewRouter)) →
      Callback (fun r => MountRoutes (f r) basePath routes)

/-- Router states reachable from `NewRouter` by registration operations,
including the states a `Group` callback starts in. -/
inductive Reachable : Router Env W → Prop
  | new : Reachable NewRouter
  | run (r : Router Env W) (f : Router Env W → Router Env W) :
      Reachable r → Callback f → Reachable (f r)
  | enter (r : Router Env W) (basePath : Str) : Reachable r →
      Reachable { r with groupBasePath := Join [r.groupBasePath, basePath], groupMiddleware := [] }

/-- The keys of the edges the lookup loop of `FindHandler` follows for the
parts (the trie position the path resolves to); `none` on a miss. -/
def findKeys {H : Type} : List Str → Node H → Option (List Str)
  | [], _ => some []
  | part :: rest, node =>
    if part = [] then findKeys rest node
    else
      match mapGet node.children part with
      | some child => (findKeys rest child).map (fun ks => part :: ks)
      | none =>
        match mapGet node.children paramKey with
        | some child => (findKeys rest child).map (fun ks => paramKey :: ks)
        | none => none

/-- A registration as `AddRoute` performs it on the trie: the method and the
keys of the edges walked. -/
abbrev Registration := Str × List Str

/-- Router states together with the history of their registrations: `Built r L`
says that `r` is reached from `NewRouter` by registration steps and that `L`
lists, latest first, the registrations `AddRoute` performed on the way.  A
`Group` call is a change of scope, the steps of its callback, and a change of
scope back; a `Mount` call is a change of scope, one `AddRoute` per enumerated
route, and a change of scope back. -/
inductive Built : Router Env W → List Registration → Prop
  | new : Built NewRouter []
  | addRoute (r : Router Env W) (L : List Registration) (method path : Str)
      (handler : HandlerFunc Env W) : Built r L →
      Built (AddRoute r method path handler)
        ((method, (segments (Join [r.groupBasePath, path])).map routeKey) :: L)
  | use (r : Router Env W) (L : List Registration) (middleware : MiddlewareFunc Env W) :
      Built r L → Built (Use r middleware) L
  | groupUse (r : Router Env W) (L : List Registration) (middleware : MiddlewareFunc Env W) :
      Built r L → Built (GroupUse r middleware) L
  | scope (r : Router Env W) (L : List Registration) (basePath : Str)
      (middleware : List (MiddlewareFunc Env W)) : Built r L →
      Built { r with groupBasePath := basePath, groupMiddleware := middleware } L

/-- What the history says about the node at the end of the key path `ks`:
every stored handler comes from a registration of its method at `ks` and the
node is marked as an end; and a node marked as an end stores a handler. -/
def Logged {H : Type} (L : List Registration) (ks : List Str) (node : Node H) : Prop :=
  (∀ m h, mapGet node.handlers m = some h → (m, ks) ∈ L ∧ node.isEnd = true) ∧
  (node.isEnd = true → ∃ m h, mapGet node.handlers m = some h)

/-- The history accounts for every node below `node`, which sits at the end of
the key path `pre`. -/
def LoggedBelow {H : Type} (L : List Registration) (pre : List Str) (node : Node H) : Prop :=
  ∀ ks n, descend ks node = some n → Logged L (pre ++ ks) n

/-- Two nodes that are equal, or that come from the same node by the walk of
`AddRoute` over the same parts for the same method, with the handlers `h1` and
`h2`. -/
def SameUpTo {H : Type} (m : Str) (h1 h2 : H) (c1 c2 : Node H) : Prop :=
  c1 = c2 ∨ ∃ s n0, (∀ x, x ∈ s → x ≠ []) ∧ c1 = addWalk m h1 s n0 ∧ c2 = addWalk m h2 s n0

/-- The tail of `FindHandler`, from the node and the bindings the lookup loop
ends with. -/
def lookupResult {H : Type} (method : Str) (found : Option (Node (Option H)) × HandlerParams) :
    Option H × HandlerParams :=
  match found with
  | (none, params) => (none, params)
  | (some node, params) =>
    if node.isEnd then
      match mapGet node.handlers method with
      | some handler => (handler, params)
      | none => (none, params)
    else (none, params)

/-- The path `collectRoutes` builds for the node at the end of a key path:
one `Join` per edge. -/
def joinKeys (basePath : Str) (ks : List Str) : Str :=
  ks.foldl (fun b k => Join [b, k]) basePath

/-- An edge key as `AddRoute` produces it from a part that is neither `.` nor
`..`: non-empty, without slash, and its own route key. -/
def PlainKey (k : Str) : Prop := k ≠ [] ∧ '/' ∉ k ∧ plainPart k ∧ routeKey k = k

/-- A trie whose maps have unique keys and whose edge keys are all plain. -/
inductive PlainTrie {H : Type} : Node H → Prop
  | mk (children : List (Str × Node H)) (isEnd : Bool) (handlers : List (Str × H))
      (parameterName : Str) :
      (children.map Prod.fst).Nodup → (handlers.map Prod.fst).Nodup →
      (∀ kc, kc ∈ children → PlainKey kc.1) →
      (∀ kc, kc ∈ children → PlainTrie kc.2) →
      PlainTrie (Node.mk children isEnd handlers parameterName)

/-- The parts the base path in effect contributes to every full path joined
from it. -/
def mountParts (G : Str) : List Str :=
  if G = [] then [] else cleanSegs (isRooted G) (segments G)

/-- The trie after the loop of `Mount`, from the trie before it: one walk of
`AddRoute` per enumerated route, with the wrapper `w` and the base path `G` in
effect during the loop. -/
def mountWalks {H : Type} (G : Str) (w : H → H) (routes : List (Str × Str × H))
    (root : Node H) : Node H :=
  routes.foldl (fun acc x => addWalk x.1 (w x.2.2) (segments (Join [G, x.2.1])) acc) root

/-- Shadowing: the lookup of the parts in the trie `old` reaches a node where
it has no literal edge for its next part (so it can only continue along the
parameter edge), and the node at the same key path of the trie `new` has a
literal edge for that part. -/
def Shadowed {H : Type} (old new : Node H) (segs : List Str) : Prop :=
  ∃ pre part rest ksp c0 c1, segs = pre ++ part :: rest ∧ part ≠ [] ∧
    findKeys pre old = some ksp ∧ descend ksp old = some c0 ∧ descend ksp new = some c1 ∧
    mapGet c0.children part = none ∧ (mapGet c1.children part).isSome = true

/-- A handler that leaves the world (a counter) as it is, for the worked
examples. -/
def idleHandler : HandlerFunc Unit Nat := some (fun _ _ w => w)

/-- A second handler for the worked examples: it increments the counter. -/
def otherHandler : HandlerFunc Unit Nat := some (fun _ _ w => w + 1)

/-- A middleware that never invokes its continuation. -/
def blockMiddleware : MiddlewareFunc Unit Nat := fun _ _ _ w => w

/-- The composition the specification describes: a right fold of the
middleware list around the raw handler. -/
def composeRight (mws : List (MiddlewareFunc Env W)) (handler : HandlerFunc Env W) :
    HandlerFunc Env W :=
  mws.foldr (fun middleware next => some (fun params env => middleware params env next)) handler

/-- A middleware that records its tag and then invokes its continuation. -/
def traceMiddleware {T : Type} (tag : T) : MiddlewareFunc Env (List T) :=
  fun params env next w =>
    match next with
    | some f => f params env (w ++ [tag])
    | none => w ++ [tag]

/-- A handler that records its tag. -/
def traceHandler {T : Type} (tag : T) : Fn Env (List T) :=
  fun _ _ w => w ++ [tag]

end

/-! ## Maps and paths -/

section MapLemmas

variable {V : Type}

theorem mapGet_mapSet_same (m : List (Str × V)) (k : Str) (v : V) :
    mapGet (mapSet m k v) k = some v := by
  induction m with
  | nil => simp [mapSet, mapGet]
  | cons kv rest ih =>
    obtain ⟨k0, w⟩ := kv
    by_cases h : k0 = k
    · simp [mapSet, mapGet, h]
    · simp [mapSet, mapGet, h, ih]

theorem mapGet_mapSet_ne (m : List (Str × V)) (k k2 : Str) (v : V) (hne : k2 ≠ k) :
    mapGet (mapSet m k v) k2 = mapGet m k2 := by
  induction m with
  | nil =>
    have : ¬ k = k2 := fun h => hne h.symm
    simp [mapSet, mapGet, this]
  | cons kv rest ih =>
    obtain ⟨k0, w⟩ := kv
    by_cases h : k0 = k
    · subst h
      have : ¬ k0 = k2 := fun h => hne h.symm
      simp [mapSet, mapGet, this]
    · by_cases h2 : k0 = k2
      · subst h2
        simp [mapSet, mapGet, h]
      · simp [mapSet, mapGet, h, h2, ih]

theorem mem_mapSet (m : List (Str × V)) (k : Str) (v : V) (x : Str × V)
    (hx : x ∈ mapSet m k v) : x = (k, v) ∨ x ∈ m := by
  induction m with
  | nil => simpa [mapSet] using hx
  | cons kv rest ih =>
    obtain ⟨k0, w⟩ := kv
    by_cases h : k0 = k
    · simp only [mapSet, h, if_true, List.mem_cons] at hx
      rcases hx with hx | hx
      · exact Or.inl hx
      · exact Or.inr (List.mem_cons_of_mem _ hx)
    · simp only [mapSet, h, if_false, List.mem_cons] at hx
      rcases hx with hx | hx
      · exact Or.inr (by simp [hx])
      · rcases ih hx with h1 | h1
        · exact Or.inl h1
        · exact Or.inr (List.mem_cons_of_mem _ h1)

theorem mem_of_mapGet (m : List (Str × V)) (k : Str) (v : V) (h : mapGet m k = some v) :
    ∃ k0, (k0, v) ∈ m ∧ k0 = k := by
  induction m with
  | nil => simp [mapGet] at h
  | cons kv rest ih =>
    obtain ⟨k0, w⟩ := kv
    by_cases hk : k0 = k
    · simp [mapGet, hk] at h
      exact ⟨k0, by simp [h], hk⟩
    · simp [mapGet, hk] at h
      obtain ⟨k1, h1, h2⟩ := ih h
      exact ⟨k1, List.mem_cons_of_mem _ h1, h2⟩

theorem mapGet_none_of_forall (m : List (Str × V)) (k : Str)
    (h : ∀ kv, kv ∈ m → kv.1 ≠ k) : mapGet m k = none := by
  induction m with
  | nil => rfl
  | cons kv rest ih =>
    obtain ⟨k0, w⟩ := kv
    have h0 : k0 ≠ k := h (k0, w) (by simp)
    simp only [mapGet, h0, if_false]
    exact ih (fun kv hkv => h kv (List.mem_cons_of_mem _ hkv))

end MapLemmas

theorem Split_ne_nil (s : Str) : Split s ≠ [] := by
  cases s with
  | nil => simp [Split]
  | cons c cs =>
    unfold Split
    split
    · simp
    · split <;> simp

theorem Split_append_slash (a b : Str) : Split (a ++ '/' :: b) = Split a ++ Split b := by
  induction a with
  | nil => simp [Split]
  | cons c cs ih =>
    by_cases hc : c = '/'
    · simp [Split, hc, ih]
    · have hne := Split_ne_nil cs
      cases hs : Split cs with
      | nil => exact absurd hs hne
      | cons x xs =>
        simp [Split, hc, ih, hs]

theorem sanitize_append (xs ys : List Str) : sanitize (xs ++ ys) = sanitize xs ++ sanitize ys := by
  induction xs with
  | nil => rfl
  | cons x xs ih =>
    by_cases hx : x = []
    · simp [sanitize, hx, ih]
    · simp [sanitize, hx, ih]

theorem mem_sanitize (xs : List Str) (x : Str) : x ∈ sanitize xs ↔ x ∈ xs ∧ x ≠ [] := by
  induction xs with
  | nil => simp [sanitize]
  | cons y ys ih =>
    by_cases hy : y = []
    · subst hy
      simp only [sanitize, ne_eq, not_true_eq_false, if_false, ih, List.mem_cons]
      constructor
      · rintro ⟨h1, h2⟩; exact ⟨Or.inr h1, h2⟩
      · rintro ⟨h1 | h1, h2⟩
        · exact absurd h1 h2
        · exact ⟨h1, h2⟩
    · simp only [sanitize, ne_eq, hy, not_false_eq_true, if_true, List.mem_cons, ih]
      constructor
      · rintro (h1 | ⟨h1, h2⟩)
        · subst h1; exact ⟨Or.inl rfl, hy⟩
        · exact ⟨Or.inr h1, h2⟩
      · rintro ⟨h1 | h1, h2⟩
        · exact Or.inl h1
        · exact Or.inr ⟨h1, h2⟩

theorem sanitize_eq_self (xs : List Str) (h : ∀ x, x ∈ xs → x ≠ []) : sanitize xs = xs := by
  induction xs with
  | nil => rfl
  | cons y ys ih =>
    have hy : y ≠ [] := h y (by simp)
    simp only [sanitize, ne_eq, hy, not_false_eq_true, if_true]
    rw [ih (fun x hx => h x (List.mem_cons_of_mem _ hx))]

theorem segments_append_slash (a b : Str) :
    segments (a ++ '/' :: b) = segments a ++ segments b := by
  simp [segments, Split_append_slash, sanitize_append]

theorem segments_nil : segments [] = [] := by
  simp [segments, Split, sanitize]

theorem segments_cons_slash (s : Str) : segments ('/' :: s) = segments s := by
  have := segments_append_slash [] s
  simpa [segments_nil] using this

theorem mem_Split (s x : Str) (hx : x ∈ Split s) : '/' ∉ x := by
  induction s generalizing x with
  | nil =>
    simp [Split] at hx
    subst hx
    simp
  | cons c cs ih =>
    by_cases hc : c = '/'
    · simp only [Split, hc, if_true, List.mem_cons] at hx
      rcases hx with hx | hx
      · subst hx; simp
      · exact ih x hx
    · cases hs : Split cs with
      | nil => exact absurd hs (Split_ne_nil cs)
      | cons y ys =>
        simp only [Split, hc, if_false, hs, List.mem_cons] at hx
        rcases hx with hx | hx
        · subst hx
          have hy : '/' ∉ y := ih y (by simp [hs])
          intro hmem
          rcases List.mem_cons.1 hmem with h1 | h1
          · exact hc h1.symm
          · exact hy h1
        · exact ih x (by simp [hs, hx])

theorem mem_segments (s x : Str) (hx : x ∈ segments s) : x ≠ [] ∧ '/' ∉ x := by
  have h := (mem_sanitize _ _).1 hx
  exact ⟨h.2, mem_Split s x h.1⟩

theorem Split_of_noSlash (s : Str) (h : '/' ∉ s) : Split s = [s] := by
  induction s with
  | nil => rfl
  | cons c cs ih =>
    have hc : c ≠ '/' := fun hc => h (by simp [hc])
    have hcs : '/' ∉ cs := fun hm => h (List.mem_cons_of_mem _ hm)
    simp [Split, hc, ih hcs]

theorem segments_of_noSlash (s : Str) (hne : s ≠ []) (h : '/' ∉ s) : segments s = [s] := by
  simp [segments, Split_of_noSlash s h, sanitize, hne]

theorem segments_joinSlash (out : List Str) (h : ∀ x, x ∈ out → x ≠ [] ∧ '/' ∉ x) :
    segments (joinSlash out) = out := by
  induction out with
  | nil => simp [joinSlash, segments_nil]
  | cons x xs ih =>
    have hx := h x (by simp)
    cases xs with
    | nil => simpa [joinSlash] using segments_of_noSlash x hx.1 hx.2
    | cons y ys =>
      have ih2 := ih (fun z hz => h z (List.mem_cons_of_mem _ hz))
      simp only [joinSlash] at ih2 ⊢
      rw [segments_append_slash, segments_of_noSlash x hx.1 hx.2]
      simp [joinSlash, ih2]

theorem segments_ne_nil_of_head (s : Str) (hne : s ≠ []) (hh : s.head? ≠ some '/') :
    segments s ≠ [] := by
  cases s with
  | nil => exact absurd rfl hne
  | cons c cs =>
    have hc : c ≠ '/' := fun hc => hh (by simp [hc])
    cases hs : Split cs with
    | nil => exact absurd hs (Split_ne_nil cs)
    | cons y ys =>
      simp [segments, Split, hc, hs, sanitize]

theorem head_joinSlash (out : List Str) (h : ∀ x, x ∈ out → x ≠ [] ∧ '/' ∉ x) :
    (joinSlash out).head? ≠ some '/' := by
  cases out with
  | nil => simp [joinSlash]
  | cons x xs =>
    have hx := h x (by simp)
    cases x with
    | nil => exact absurd rfl hx.1
    | cons c cs =>
      have hc : c ≠ '/' := fun hc => hx.2 (by simp [hc])
      cases xs with
      | nil => simpa [joinSlash] using hc
      | cons y ys => simpa [joinSlash] using hc

/-! ## `path.Clean` and `path.Join` on parts -/

theorem cleanStep_plain (r : Bool) (stk : List Str) (x : Str) (hx : plainPart x) :
    cleanStep r stk x = x :: stk := by
  simp [cleanStep, hx.1, hx.2]

theorem foldl_cleanStep_plain (r : Bool) (l acc : List Str) (h : ∀ x, x ∈ l → plainPart x) :
    l.foldl (cleanStep r) acc = l.reverse ++ acc := by
  induction l generalizing acc with
  | nil => rfl
  | cons x xs ih =>
    simp only [List.foldl_cons, cleanStep_plain r acc x (h x (by simp))]
    rw [ih _ (fun y hy => h y (List.mem_cons_of_mem _ hy))]
    simp

theorem cleanSegs_plain (r : Bool) (l : List Str) (h : ∀ x, x ∈ l → plainPart x) :
    cleanSegs r l = l := by
  simp [cleanSegs, foldl_cleanStep_plain r l [] h]

theorem foldl_cleanStep_dotdot (l acc : List Str) (h : ∀ x, x ∈ l → x = ['.', '.'])
    (hacc : ∀ x, x ∈ acc → x = ['.', '.']) :
    l.foldl (cleanStep false) acc = l.reverse ++ acc := by
  induction l generalizing acc with
  | nil => rfl
  | cons x xs ih =>
    have hx : x = ['.', '.'] := h x (by simp)
    subst hx
    have hstep : cleanStep false acc ['.', '.'] = ['.', '.'] :: acc := by
      cases acc with
      | nil => simp [cleanStep]
      | cons t rest =>
        have ht : t = ['.', '.'] := hacc t (by simp)
        simp [cleanStep, ht]
    simp only [List.foldl_cons, hstep]
    rw [ih _ (fun y hy => h y (List.mem_cons_of_mem _ hy))]
    · simp
    · intro y hy
      rcases List.mem_cons.1 hy with h1 | h1
      · exact h1
      · exact hacc y h1

theorem NormalStk_nil (r : Bool) : NormalStk r [] :=
  ⟨[], [], rfl, by simp, by simp, fun _ => rfl⟩

theorem cleanStep_normal (r : Bool) (s : List Str) (x : Str) (hs : NormalStk r s) :
    NormalStk r (cleanStep r s x) := by
  obtain ⟨reals, dd, rfl, hreal, hdd, hr⟩ := hs
  by_cases h1 : x = ['.']
  · simpa [cleanStep, h1] using ⟨reals, dd, rfl, hreal, hdd, hr⟩
  by_cases h2 : x = ['.', '.']
  · subst h2
    cases reals with
    | nil =>
      cases dd with
      | nil =>
        cases r with
        | true => simpa [cleanStep] using NormalStk_nil true
        | false =>
          refine ⟨[], [['.', '.']], ?_, by simp, by simp, by simp⟩
          simp [cleanStep]
      | cons t rest =>
        have ht : t = ['.', '.'] := hdd t (by simp)
        have hrf : r = false := by
          cases r with
          | true => exact absurd (hr rfl) (by simp)
          | false => rfl
        subst hrf
        refine ⟨[], ['.', '.'] :: t :: rest, ?_, by simp, ?_, by simp⟩
        · simp [cleanStep, ht]
        · intro y hy
          rcases List.mem_cons.1 hy with h3 | h3
          · exact h3
          · exact hdd y h3
    | cons t rest =>
      have ht : plainPart t := hreal t (by simp)
      refine ⟨rest, dd, ?_, fun y hy => hreal y (List.mem_cons_of_mem _ hy), hdd, hr⟩
      simp [cleanStep, ht.2]
  · refine ⟨x :: reals, dd, ?_, ?_, hdd, hr⟩
    · simp [cleanStep, h1, h2]
    · intro y hy
      rcases List.mem_cons.1 hy with h3 | h3
      · subst h3; exact ⟨h1, h2⟩
      · exact hreal y h3

theorem foldl_cleanStep_normal (r : Bool) (l acc : List Str) (hs : NormalStk r acc) :
    NormalStk r (l.foldl (cleanStep r) acc) := by
  induction l generalizing acc with
  | nil => exact hs
  | cons x xs ih => exact ih _ (cleanStep_normal r acc x hs)

theorem foldl_cleanStep_replay (r : Bool) (s : List Str) (hs : NormalStk r s) :
    s.reverse.foldl (cleanStep r) [] = s := by
  obtain ⟨reals, dd, rfl, hreal, hdd, hr⟩ := hs
  have hrev : ∀ x, x ∈ reals.reverse → plainPart x := fun x hx => hreal x (by simpa using hx)
  cases r with
  | true =>
    have : dd = [] := hr rfl
    subst this
    simp only [List.append_nil]
    rw [foldl_cleanStep_plain true _ [] hrev]
    simp
  | false =>
    rw [List.reverse_append, List.foldl_append,
      foldl_cleanStep_dotdot dd.reverse [] (fun x hx => hdd x (by simpa using hx)) (by simp)]
    simp only [List.reverse_reverse, List.append_nil]
    rw [foldl_cleanStep_plain false _ dd hrev]
    simp

theorem cleanSegs_cleanOut_append (r : Bool) (xs ys : List Str) :
    cleanSegs r (cleanOut r xs ++ ys) = cleanSegs r (xs ++ ys) := by
  have hn := foldl_cleanStep_normal r xs [] (NormalStk_nil r)
  by_cases h : r = false ∧ cleanSegs r xs = []
  · obtain ⟨hr, h2⟩ := h
    subst hr
    have hS : xs.foldl (cleanStep false) [] = [] := by
      simpa [cleanSegs] using h2
    simp only [cleanOut, h2, and_self, if_true]
    simp [cleanSegs, List.foldl_append, hS, cleanStep]
  · simp only [cleanOut, h, if_false]
    simp only [cleanSegs, List.foldl_append]
    rw [foldl_cleanStep_replay r _ hn]

theorem cleanOut_cleanOut_append (r : Bool) (xs ys : List Str) :
    cleanOut r (cleanOut r xs ++ ys) = cleanOut r (xs ++ ys) := by
  have h := cleanSegs_cleanOut_append r xs ys
  simp only [cleanOut] at h ⊢
  rw [h]

theorem mem_foldl_cleanStep (r : Bool) (l acc : List Str) (x : Str)
    (hx : x ∈ l.foldl (cleanStep r) acc) : x ∈ acc ∨ x ∈ l ∨ x = ['.', '.'] := by
  induction l generalizing acc with
  | nil => exact Or.inl hx
  | cons y ys ih =>
    rcases ih _ hx with h | h | h
    · have hstep : x ∈ acc ∨ x = y ∨ x = ['.', '.'] := by
        unfold cleanStep at h
        split at h
        · exact Or.inl h
        · split at h
          · split at h
            · split at h
              · simp at h
              · simp at h; exact Or.inr (Or.inr h)
            · split at h
              · split at h
                · exact Or.inl h
                · rcases List.mem_cons.1 h with h' | h'
                  · exact Or.inr (Or.inr h')
                  · exact Or.inl h'
              · exact Or.inl (List.mem_cons_of_mem _ h)
          · rcases List.mem_cons.1 h with h' | h'
            · exact Or.inr (Or.inl h')
            · exact Or.inl h'
      rcases hstep with h' | h' | h'
      · exact Or.inl h'
      · exact Or.inr (Or.inl (by simp [h']))
      · exact Or.inr (Or.inr h')
    · exact Or.inr (Or.inl (List.mem_cons_of_mem _ h))
    · exact Or.inr (Or.inr h)

theorem mem_cleanSegs (r : Bool) (l : List Str) (x : Str) (hx : x ∈ cleanSegs r l)
    (hl : ∀ y, y ∈ l → y ≠ [] ∧ '/' ∉ y) : x ≠ [] ∧ '/' ∉ x := by
  have hx2 : x ∈ l.foldl (cleanStep r) [] := by simpa [cleanSegs] using hx
  rcases mem_foldl_cleanStep r l [] x hx2 with h | h | h
  · simp at h
  · exact hl x h
  · subst h
    constructor
    · simp
    · decide

theorem joinSlash_ne_nil (out : List Str) (hne : out ≠ []) (h : ∀ x, x ∈ out → x ≠ [] ∧ '/' ∉ x) :
    joinSlash out ≠ [] := by
  cases out with
  | nil => exact absurd rfl hne
  | cons x xs =>
    have hx := (h x (by simp)).1
    cases xs with
    | nil => simpa [joinSlash] using hx
    | cons y ys => simp [joinSlash, hx]

theorem mem_cleanSegs_segments (p : Str) (r : Bool) (x : Str)
    (hx : x ∈ cleanSegs r (segments p)) : x ≠ [] ∧ '/' ∉ x :=
  mem_cleanSegs _ _ x hx (fun y hy => mem_segments p y hy)

theorem segments_dot : segments ['.'] = [['.']] :=
  segments_of_noSlash ['.'] (by simp) (by decide)

theorem segments_Clean (p : Str) :
    segments (Clean p) = cleanOut (isRooted p) (segments p) := by
  by_cases hp : p = []
  · subst hp
    simp [Clean, cleanOut, isRooted, segments_nil, cleanSegs, segments_dot]
  · have hmem := mem_cleanSegs_segments p (isRooted p)
    simp only [Clean, hp, if_false]
    change segments (if isRooted p = true then '/' :: joinSlash (cleanSegs (isRooted p) (segments p))
      else if cleanSegs (isRooted p) (segments p) = [] then ['.']
      else joinSlash (cleanSegs (isRooted p) (segments p))) = _
    cases hr : isRooted p with
    | true =>
      rw [hr] at hmem
      simp only [if_true, cleanOut]
      rw [segments_cons_slash, segments_joinSlash _ hmem]
      simp
    | false =>
      rw [hr] at hmem
      by_cases ho : cleanSegs false (segments p) = []
      · simp [cleanOut, ho, segments_dot]
      · simp only [cleanOut, ho, and_false, if_false]
        simp only [Bool.false_eq_true, if_false]
        exact segments_joinSlash _ hmem

theorem Clean_ne_nil (p : Str) : Clean p ≠ [] := by
  by_cases hp : p = []
  · simp [Clean, hp]
  · have hmem := mem_cleanSegs_segments p (isRooted p)
    simp only [Clean, hp, if_false]
    change (if isRooted p = true then '/' :: joinSlash (cleanSegs (isRooted p) (segments p))
      else if cleanSegs (isRooted p) (segments p) = [] then ['.']
      else joinSlash (cleanSegs (isRooted p) (segments p))) ≠ []
    split
    · simp
    · split
      · simp
      · rename_i h1 h2
        exact joinSlash_ne_nil _ h2 hmem

theorem isRooted_Clean (p : Str) : isRooted (Clean p) = isRooted p := by
  by_cases hp : p = []
  · subst hp
    simp [Clean, isRooted]
  · have hmem := mem_cleanSegs_segments p (isRooted p)
    simp only [Clean, hp, if_false]
    change isRooted (if isRooted p = true then '/' :: joinSlash (cleanSegs (isRooted p) (segments p))
      else if cleanSegs (isRooted p) (segments p) = [] then ['.']
      else joinSlash (cleanSegs (isRooted p) (segments p))) = _
    cases hr : isRooted p with
    | true => simp [isRooted]
    | false =>
      rw [hr] at hmem
      simp only [Bool.false_eq_true, if_false]
      split
      · simp [isRooted]
      · have := head_joinSlash _ hmem
        simpa [isRooted] using this

theorem isRooted_append (a b : Str) (ha : a ≠ []) : isRooted (a ++ b) = isRooted a := by
  cases a with
  | nil => exact absurd rfl ha
  | cons c cs => simp [isRooted]

theorem joinBuf_of_ne_nil (buf : Str) (es : List Str) (h : buf ≠ []) :
    joinBuf buf es ≠ [] ∧ isRooted (joinBuf buf es) = isRooted buf ∧
      segments (joinBuf buf es) = segments buf ++ segmentsAll es := by
  induction es generalizing buf with
  | nil => simp [joinBuf, segmentsAll, h]
  | cons e es ih =>
    have hne : buf ++ ['/'] ++ e ≠ [] := by simp [h]
    obtain ⟨h1, h2, h3⟩ := ih (buf ++ ['/'] ++ e) hne
    have hstep : joinBuf buf (e :: es) = joinBuf (buf ++ ['/'] ++ e) es := by
      simp [joinBuf, h]
    rw [hstep]
    refine ⟨h1, ?_, ?_⟩
    · rw [h2, List.append_assoc, isRooted_append _ _ h]
    · rw [h3]
      have : buf ++ ['/'] ++ e = buf ++ '/' :: e := by simp
      rw [this, segments_append_slash]
      simp [segmentsAll]

theorem joinBuf_nil (es : List Str) :
    (concatAll es = [] → joinBuf [] es = []) ∧
      (concatAll es ≠ [] → joinBuf [] es ≠ [] ∧
        isRooted (joinBuf [] es) = isRooted (concatAll es)) ∧
      segments (joinBuf [] es) = segmentsAll es := by
  induction es with
  | nil => simp [joinBuf, concatAll, segmentsAll, segments_nil]
  | cons e es ih =>
    by_cases he : e = []
    · subst he
      have hstep : joinBuf [] ([] :: es) = joinBuf [] es := by simp [joinBuf]
      rw [hstep]
      simpa [concatAll, segmentsAll, segments_nil] using ih
    · have hstep : joinBuf [] (e :: es) = joinBuf e es := by simp [joinBuf, he]
      obtain ⟨h1, h2, h3⟩ := joinBuf_of_ne_nil e es he
      rw [hstep]
      refine ⟨?_, ?_, ?_⟩
      · intro hc
        simp [concatAll, he] at hc
      · intro _
        refine ⟨h1, ?_⟩
        rw [h2]
        simp [concatAll, isRooted_append _ _ he]
      · rw [h3]
        simp [segmentsAll]

theorem sum_length_eq_zero (es : List Str) :
    (es.map List.length).sum = 0 ↔ concatAll es = [] := by
  induction es with
  | nil => simp [concatAll]
  | cons e es ih =>
    simp only [List.map_cons, List.sum_cons, concatAll, List.append_eq_nil, ← ih]
    constructor
    · intro h
      have h1 : e.length = 0 := by omega
      have h2 : (es.map List.length).sum = 0 := by omega
      exact ⟨List.length_eq_zero.1 h1, h2⟩
    · rintro ⟨h1, h2⟩
      simp [h1, h2]

theorem Join_eq_nil (es : List Str) (h : concatAll es = []) : Join es = [] := by
  simp [Join, (sum_length_eq_zero es).2 h]

theorem Join_ne_nil (es : List Str) (h : concatAll es ≠ []) : Join es ≠ [] := by
  have : ¬ (es.map List.length).sum = 0 := fun h0 => h ((sum_length_eq_zero es).1 h0)
  simp only [Join, this, if_false]
  exact Clean_ne_nil _

theorem isRooted_Join (es : List Str) (h : concatAll es ≠ []) :
    isRooted (Join es) = isRooted (concatAll es) := by
  have : ¬ (es.map List.length).sum = 0 := fun h0 => h ((sum_length_eq_zero es).1 h0)
  simp only [Join, this, if_false]
  rw [isRooted_Clean]
  exact ((joinBuf_nil es).2.1 h).2

/-- The parts of a joined path: none when every element is empty, otherwise the
cleaned parts of all elements, rooted like the first non-empty element. -/
theorem segments_Join (es : List Str) :
    segments (Join es) =
      if concatAll es = [] then [] else cleanOut (isRooted (concatAll es)) (segmentsAll es) := by
  by_cases h : concatAll es = []
  · simp [Join_eq_nil es h, h, segments_nil]
  · have : ¬ (es.map List.length).sum = 0 := fun h0 => h ((sum_length_eq_zero es).1 h0)
    simp only [Join, this, if_false, h]
    rw [segments_Clean, (joinBuf_nil es).2.2, ((joinBuf_nil es).2.1 h).2]

theorem cleanOut_plain (r : Bool) (l : List Str) (h : ∀ x, x ∈ l → plainPart x)
    (hne : r = false → l ≠ []) : cleanOut r l = l := by
  simp only [cleanOut, cleanSegs_plain r l h]
  split
  · rename_i h1
    exact absurd h1.2 (hne h1.1)
  · rfl

/-- At top level, a path without `.` and `..` parts is stored under its own
parts. -/
theorem segments_Join_top (p : Str) (h : ∀ x, x ∈ segments p → plainPart x) :
    segments (Join [[], p]) = segments p := by
  rw [segments_Join]
  by_cases hp : p = []
  · simp [concatAll, hp, segments_nil]
  · simp only [concatAll, List.nil_append, List.append_nil, hp, if_false, segmentsAll,
      segments_nil]
    apply cleanOut_plain _ _ h
    intro hr
    apply segments_ne_nil_of_head p hp
    intro hh
    simp [isRooted, hh] at hr

/-- Joining in two steps, as `Group`, `Mount` and `AddRoute` do, gives the
parts of the three-element join. -/
theorem segments_Join_assoc (a b c : Str) :
    segments (Join [Join [a, b], c]) = segments (Join [a, b, c]) := by
  by_cases hab : concatAll [a, b] = []
  · have ha : a = [] := by simp [concatAll] at hab; exact hab.1
    have hb : b = [] := by simp [concatAll] at hab; exact hab.2
    subst ha hb
    rw [Join_eq_nil _ hab, segments_Join, segments_Join]
    simp [concatAll, segmentsAll, segments_nil]
  · have hJ := Join_ne_nil _ hab
    have hab3 : concatAll [a, b, c] ≠ [] := by
      simp only [concatAll, List.append_nil] at hab ⊢
      intro h
      apply hab
      simp only [List.append_eq_nil] at h ⊢
      exact ⟨h.1, h.2.1⟩
    have h1 : concatAll [Join [a, b], c] ≠ [] := by simp [concatAll, hJ]
    have hr1 : isRooted (concatAll [Join [a, b], c]) = isRooted (concatAll [a, b]) := by
      simp only [concatAll, List.append_nil]
      rw [isRooted_append _ _ hJ, isRooted_Join _ hab]
      simp [concatAll]
    have hr3 : isRooted (concatAll [a, b, c]) = isRooted (concatAll [a, b]) := by
      have : concatAll [a, b, c] = concatAll [a, b] ++ c := by simp [concatAll]
      rw [this, isRooted_append _ _ hab]
    rw [segments_Join, segments_Join, if_neg h1, if_neg hab3, hr1, hr3]
    have : segmentsAll [Join [a, b], c] = segments (Join [a, b]) ++ segments c := by
      simp [segmentsAll]
    rw [this, segments_Join, if_neg hab, cleanOut_cleanOut_append]
    simp [segmentsAll]

/-! ## The trie -/

section Trie

variable {H : Type}

@[simp] theorem Node.children_mk (c : List (Str × Node H)) (e : Bool) (h : List (Str × H))
    (p : Str) : (Node.mk c e h p).children = c := rfl

@[simp] theorem Node.isEnd_mk (c : List (Str × Node H)) (e : Bool) (h : List (Str × H))
    (p : Str) : (Node.mk c e h p).isEnd = e := rfl

@[simp] theorem Node.handlers_mk (c : List (Str × Node H)) (e : Bool) (h : List (Str × H))
    (p : Str) : (Node.mk c e h p).handlers = h := rfl

@[simp] theorem Node.parameterName_mk (c : List (Str × Node H)) (e : Bool) (h : List (Str × H))
    (p : Str) : (Node.mk c e h p).parameterName = p := rfl

theorem addWalk_nil (m : Str) (h : H) (n : Node H) :
    addWalk m h [] n = Node.mk n.children true (mapSet n.handlers m h) n.parameterName := by
  simp [addWalk]

theorem addWalk_cons (m : Str) (h : H) (part : Str) (rest : List Str) (n : Node H)
    (hp : part ≠ []) :
    addWalk m h (part :: rest) n =
      Node.mk (mapSet n.children (routeKey part)
          (addWalk m h rest (match mapGet n.children (routeKey part) with
            | some c => c
            | none => NewNode)))
        n.isEnd n.handlers (if hasColon part then part.tail else n.parameterName) := by
  simp [addWalk, hp, routeKey]

theorem descend_nil (n : Node H) : descend [] n = some n := rfl

theorem descend_cons (k : Str) (ks : List Str) (n : Node H) :
    descend (k :: ks) n =
      match mapGet n.children k with
      | some child => descend ks child
      | none => none := rfl

theorem descend_NewNode_cons (k : Str) (ks : List Str) :
    descend (k :: ks) (NewNode : Node H) = none := by
  simp [descend, NewNode, mapGet]

theorem routeKey_ok (part : Str) : routeKey part = paramKey ∨ hasColon (routeKey part) = false := by
  unfold routeKey
  cases h : hasColon part with
  | true => exact Or.inl (by simp)
  | false => exact Or.inr (by simp [h])

theorem routeKey_of_not_colon (part : Str) (h : hasColon part = false) : routeKey part = part := by
  simp [routeKey, h]

theorem KeysOK_NewNode : KeysOK (NewNode : Node H) :=
  KeysOK.mk [] false [] [] (by simp) (by simp)

theorem KeysOK.key {n : Node H} (hn : KeysOK n) (kc : Str × Node H) (hmem : kc ∈ n.children) :
    kc.1 = paramKey ∨ hasColon kc.1 = false := by
  cases hn with
  | mk c e h p h1 h2 => exact h1 kc hmem

theorem KeysOK.child {n : Node H} (hn : KeysOK n) (k : Str) (c : Node H)
    (hget : mapGet n.children k = some c) : KeysOK c := by
  cases hn with
  | mk ch e h p h1 h2 =>
    obtain ⟨k0, hmem, _⟩ := mem_of_mapGet ch k c hget
    exact h2 (k0, c) hmem

theorem KeysOK.no_literal_colon {n : Node H} (hn : KeysOK n) (k : Str)
    (hc : hasColon k = true) (hk : k ≠ paramKey) : mapGet n.children k = none := by
  apply mapGet_none_of_forall
  intro kc hmem heq
  rcases hn.key kc hmem with h | h
  · exact hk (heq ▸ h)
  · rw [heq, hc] at h
    exact Bool.noConfusion h

theorem KeysOK.setFields {n : Node H} (hn : KeysOK n) (e : Bool) (h : List (Str × H)) (p : Str) :
    KeysOK (Node.mk n.children e h p) := by
  cases hn with
  | mk c e0 h0 p0 h1 h2 => exact KeysOK.mk c e h p h1 h2

theorem addWalk_KeysOK (m : Str) (h : H) (segs : List Str) (n : Node H) (hn : KeysOK n) :
    KeysOK (addWalk m h segs n) := by
  induction segs generalizing n with
  | nil =>
    rw [addWalk_nil]
    exact hn.setFields _ _ _
  | cons part rest ih =>
    by_cases hp : part = []
    · simpa [addWalk, hp] using ih n hn
    · rw [addWalk_cons m h part rest n hp]
      have hchild : KeysOK (match mapGet n.children (routeKey part) with
          | some c => c
          | none => (NewNode : Node H)) := by
        cases hget : mapGet n.children (routeKey part) with
        | none => exact KeysOK_NewNode
        | some c => exact hn.child _ c hget
      refine KeysOK.mk _ _ _ _ ?_ ?_
      · intro kc hmem
        rcases mem_mapSet _ _ _ _ hmem with h1 | h1
        · rw [h1]
          exact routeKey_ok part
        · exact hn.key kc h1
      · intro kc hmem
        rcases mem_mapSet _ _ _ _ hmem with h1 | h1
        · rw [h1]
          exact ih _ hchild
        · cases hn with
          | mk c e0 h0 p0 h2 h3 => exact h3 kc h1

/-- After the walk of `AddRoute`, the keys of the parts lead to a node that is
marked as an end and holds the handler for the method. -/
theorem descend_addWalk (m : Str) (h : H) (segs : List Str) (n : Node H)
    (hseg : ∀ x, x ∈ segs → x ≠ []) :
    ∃ n2, descend (segs.map routeKey) (addWalk m h segs n) = some n2 ∧
      n2.isEnd = true ∧ mapGet n2.handlers m = some h := by
  induction segs generalizing n with
  | nil =>
    refine ⟨_, rfl, ?_, ?_⟩
    · simp [addWalk_nil]
    · simp [addWalk_nil, mapGet_mapSet_same]
  | cons part rest ih =>
    have hp : part ≠ [] := hseg part (by simp)
    rw [addWalk_cons m h part rest n hp]
    obtain ⟨n2, h1, h2, h3⟩ := ih (match mapGet n.children (routeKey part) with
          | some c => c
          | none => (NewNode : Node H)) (fun x hx => hseg x (List.mem_cons_of_mem _ hx))
    refine ⟨n2, ?_, h2, h3⟩
    simp only [List.map_cons, descend_cons, Node.children_mk, mapGet_mapSet_same]
    exact h1

/-- A later `AddRoute` walk keeps every served key path served. -/
theorem descend_addWalk_serves (P : H → Prop) (m : Str) (ks : List Str) (n n1 : Node H)
    (hd : descend ks n = some n1) (hs : Serves P m n1)
    (m2 : Str) (h2 : H) (segs : List Str) (hP : P h2) :
    ∃ n2, descend ks (addWalk m2 h2 segs n) = some n2 ∧ Serves P m n2 := by
  induction segs generalizing n ks n1 with
  | nil =>
    rw [addWalk_nil]
    cases ks with
    | nil =>
      simp only [descend_nil, Option.some.injEq] at hd
      subst hd
      refine ⟨_, rfl, ?_, ?_⟩
      · simp
      · by_cases hm : m = m2
        · subst hm
          exact ⟨h2, by simp [mapGet_mapSet_same], hP⟩
        · obtain ⟨h0, hget, hP0⟩ := hs.2
          exact ⟨h0, by simp [mapGet_mapSet_ne _ _ _ _ hm, hget], hP0⟩
    | cons k ks =>
      refine ⟨n1, ?_, hs⟩
      simpa [descend_cons] using hd
  | cons part rest ih =>
    by_cases hp : part = []
    · subst hp
      simpa [addWalk] using ih ks n n1 hd hs
    · rw [addWalk_cons m2 h2 part rest n hp]
      cases ks with
      | nil =>
        simp only [descend_nil, Option.some.injEq] at hd
        subst hd
        refine ⟨_, rfl, ?_, ?_⟩
        · simpa using hs.1
        · simpa using hs.2
      | cons k ks =>
        rw [descend_cons] at hd
        by_cases hk : k = routeKey part
        · subst hk
          cases hget : mapGet n.children (routeKey part) with
          | none => simp [hget] at hd
          | some c =>
            simp only [hget] at hd
            obtain ⟨n2, h3, h4⟩ := ih ks c n1 hd hs
            refine ⟨n2, ?_, h4⟩
            simp only [descend_cons, Node.children_mk, mapGet_mapSet_same]
            exact h3
        · refine ⟨n1, ?_, hs⟩
          simp only [descend_cons, Node.children_mk, mapGet_mapSet_ne _ _ _ _ hk]
          exact hd

/-- A walk of `AddRoute` that leaves a key path at some edge does not touch the
node at the end of that key path. -/
theorem descend_addWalk_diverge (m : Str) (h : H) (pre : List Str) (part : Str)
    (rest : List Str) (k : Str) (ks : List Str) (n : Node H)
    (hpre : ∀ x, x ∈ pre → x ≠ []) (hpart : part ≠ []) (hk : k ≠ routeKey part) :
    descend (pre.map routeKey ++ k :: ks) (addWalk m h (pre ++ part :: rest) n) =
      descend (pre.map routeKey ++ k :: ks) n := by
  induction pre generalizing n with
  | nil =>
    simp only [List.map_nil, List.nil_append]
    rw [addWalk_cons m h part rest n hpart]
    simp only [descend_cons, Node.children_mk, mapGet_mapSet_ne _ _ _ _ hk]
  | cons q pre ih =>
    have hq : q ≠ [] := hpre q (by simp)
    have ih2 := fun n => ih n (fun x hx => hpre x (List.mem_cons_of_mem _ hx))
    simp only [List.map_cons, List.cons_append]
    rw [addWalk_cons m h q _ n hq]
    simp only [descend_cons, Node.children_mk, mapGet_mapSet_same]
    rw [ih2]
    cases hget : mapGet n.children (routeKey q) with
    | some c => rfl
    | none =>
      simp only []
      cases pre with
      | nil => simp [descend_NewNode_cons]
      | cons q2 pre2 => simp [descend_NewNode_cons]

/-- On a trie whose keys are well formed, `FindHandler` walks the parts of a
registered route along the keys `AddRoute` used. -/
theorem findWalk_of_descend (segs : List Str) (n n2 : Node H) (params : HandlerParams)
    (hk : KeysOK n) (hseg : ∀ x, x ∈ segs → x ≠ [])
    (hd : descend (segs.map routeKey) n = some n2) :
    (findWalk segs n params).1 = some n2 := by
  induction segs generalizing n params with
  | nil =>
    simpa [findWalk, descend] using hd
  | cons part rest ih =>
    have hp : part ≠ [] := hseg part (by simp)
    have hrest : ∀ x, x ∈ rest → x ≠ [] := fun x hx => hseg x (List.mem_cons_of_mem _ hx)
    simp only [List.map_cons, descend_cons] at hd
    cases hget : mapGet n.children (routeKey part) with
    | none => simp [hget] at hd
    | some c =>
      simp only [hget] at hd
      have hc : KeysOK c := hk.child _ c hget
      cases hcol : hasColon part with
      | false =>
        rw [routeKey_of_not_colon part hcol] at hget
        simp only [findWalk, hp, if_false, hget]
        exact ih c params hc hrest hd
      | true =>
        have hkey : routeKey part = paramKey := by simp [routeKey, hcol]
        rw [hkey] at hget
        by_cases hpk : part = paramKey
        · subst hpk
          simp only [findWalk, hp, if_false, hget]
          exact ih c params hc hrest hd
        · have hnone := hk.no_literal_colon part hcol hpk
          simp only [findWalk, hp, if_false, hnone, hget]
          exact ih c _ hc hrest hd

/-- Literal parts whose edges exist are followed without binding anything. -/
theorem findWalk_literal (segs : List Str) (n n2 : Node H) (params : HandlerParams)
    (hseg : ∀ x, x ∈ segs → x ≠ []) (hd : descend segs n = some n2) :
    findWalk segs n params = (some n2, params) := by
  induction segs generalizing n with
  | nil =>
    simp only [descend_nil, Option.some.injEq] at hd
    simp [findWalk, hd]
  | cons part rest ih =>
    have hp : part ≠ [] := hseg part (by simp)
    rw [descend_cons] at hd
    cases hget : mapGet n.children part with
    | none => simp [hget] at hd
    | some c =>
      simp only [hget] at hd
      simp only [findWalk, hp, if_false, hget]
      exact ih c (fun x hx => hseg x (List.mem_cons_of_mem _ hx)) hd

end Trie

/-! ## The router -/

section RouterLemmas

variable {Env W : Type}

theorem wrapLoop_isSome (all : List (MiddlewareFunc Env W)) (k : Nat) (h : HandlerFunc Env W)
    (hh : h.isSome = true) : (wrapLoop all k h).isSome = true := by
  induction k generalizing h with
  | zero => simpa [wrapLoop] using hh
  | succ i ih =>
    unfold wrapLoop
    split
    · exact ih _ rfl
    · exact ih _ hh

theorem wrapWithMiddleware_isSome (r : Router Env W) (h : HandlerFunc Env W)
    (hh : h.isSome = true) : (wrapWithMiddleware r h).isSome = true :=
  wrapLoop_isSome _ _ h hh

theorem wrapWithMiddleware_none (r : Router Env W) (h : HandlerFunc Env W)
    (hg : r.globalMiddleware = []) (hq : r.groupMiddleware = []) :
    wrapWithMiddleware r h = h := by
  simp [wrapWithMiddleware, hg, hq, wrapLoop]

theorem AddRoute_root (r : Router Env W) (m p : Str) (h : HandlerFunc Env W) :
    (AddRoute r m p h).root =
      addWalk m (wrapWithMiddleware r h) (segments (Join [r.groupBasePath, p])) r.root := rfl

theorem AddRoute_groupBasePath (r : Router Env W) (m p : Str) (h : HandlerFunc Env W) :
    (AddRoute r m p h).groupBasePath = r.groupBasePath := rfl

theorem AddRoute_globalMiddleware (r : Router Env W) (m p : Str) (h : HandlerFunc Env W) :
    (AddRoute r m p h).globalMiddleware = r.globalMiddleware := rfl

theorem AddRoute_groupMiddleware (r : Router Env W) (m p : Str) (h : HandlerFunc Env W) :
    (AddRoute r m p h).groupMiddleware = r.groupMiddleware := rfl

theorem FindHandler_eq_of_walk (r : Router Env W) (m p : Str) (n2 : Node (HandlerFunc Env W))
    (params : HandlerParams) (h : HandlerFunc Env W)
    (hw : findWalk (segments p) r.root [] = (some n2, params))
    (he : n2.isEnd = true) (hh : mapGet n2.handlers m = some h) :
    FindHandler r m p = (h, params) := by
  unfold FindHandler
  simp only [segments] at hw
  simp only [hw, he, if_true, hh]

theorem FindHandler_present_of_walk (r : Router Env W) (m p : Str)
    (n2 : Node (HandlerFunc Env W))
    (hw : (findWalk (segments p) r.root []).1 = some n2)
    (hs : Serves (fun h : HandlerFunc Env W => h.isSome = true) m n2) :
    (FindHandler r m p).1.isSome = true := by
  obtain ⟨he, h, hget, hsome⟩ := hs
  cases hfw : findWalk (segments p) r.root [] with
  | mk found params =>
    rw [hfw] at hw
    simp only at hw
    subst hw
    rw [FindHandler_eq_of_walk r m p n2 params h hfw he hget]
    exact hsome

theorem mem_segments_ne_nil (p : Str) : ∀ x, x ∈ segments p → x ≠ [] :=
  fun x hx => (mem_segments p x hx).1

theorem foldl_AddRoute_KeysOK (routes : List (Route Env W)) (r : Router Env W)
    (hk : KeysOK r.root) :
    KeysOK (routes.foldl (fun acc route => AddRoute acc route.1 route.2.1 route.2.2) r).root := by
  induction routes generalizing r with
  | nil => exact hk
  | cons route rest ih =>
    exact ih _ (addWalk_KeysOK _ _ _ _ hk)

theorem Callback_KeysOK (f : Router Env W → Router Env W) (hf : Callback f) :
    ∀ r : Router Env W, KeysOK r.root → KeysOK (f r).root := by
  induction hf with
  | done => exact fun r hk => hk
  | addRoute f m p h _ ih => exact fun r hk => addWalk_KeysOK _ _ _ _ (ih r hk)
  | use f mw _ ih => exact fun r hk => ih r hk
  | groupUse f mw _ ih => exact fun r hk => ih r hk
  | group f g base _ _ ihf ihg =>
    intro r hk
    exact ihg _ (ihf r hk)
  | mount f g base routes _ _ _ ihf _ =>
    intro r hk
    exact foldl_AddRoute_KeysOK routes _ (ihf r hk)

/-- Every reachable trie has well-formed edge keys. -/
theorem Reachable_KeysOK (r : Router Env W) (hr : Reachable r) : KeysOK r.root := by
  induction hr with
  | new => exact KeysOK_NewNode
  | run r f _ hf ih => exact Callback_KeysOK f hf r ih
  | enter r base _ ih => exact ih

end RouterLemmas

/-! ## Claims -/

section Registration

variable {Env W : Type}

/-- C1 (amended): in every reachable router state with empty group base
path, for every method, every present handler and every path none of whose parts
is `.` or `..`, `FindHandler` returns a present handler immediately after
`AddRoute`. -/
theorem AddRoute_then_FindHandler_present (r : Router Env W) (hr : Reachable r)
    (htop : r.groupBasePath = []) (m p : Str) (h : HandlerFunc Env W)
    (hh : h.isSome = true) (hp : ∀ x, x ∈ segments p → plainPart x) :
    (FindHandler (AddRoute r m p h) m p).1.isSome = true := by
  have hk : KeysOK (AddRoute r m p h).root :=
    Reachable_KeysOK _ (Reachable.run r _ hr (Callback.addRoute _ m p h Callback.done))
  have hsegs : segments (Join [r.groupBasePath, p]) = segments p := by
    rw [htop]
    exact segments_Join_top p hp
  obtain ⟨n2, hd, he, hget⟩ :=
    descend_addWalk m (wrapWithMiddleware r h) (segments p) r.root (mem_segments_ne_nil p)
  have hroot : (AddRoute r m p h).root =
      addWalk m (wrapWithMiddleware r h) (segments p) r.root := by
    rw [AddRoute_root, hsegs]
  apply FindHandler_present_of_walk _ m p n2
  · apply findWalk_of_descend _ _ _ _ hk (mem_segments_ne_nil p)
    rw [hroot]
    exact hd
  · exact ⟨he, _, hget, wrapWithMiddleware_isSome r h hh⟩

/-- C1 (witness): the route of `main.go`, `GET /test` on a fresh router. -/
theorem AddRoute_then_FindHandler_present_witness :
    (FindHandler (AddRoute (NewRouter : Router Unit Nat) "GET".toList "/test".toList
      idleHandler) "GET".toList "/test".toList).1.isSome = true :=
  AddRoute_then_FindHandler_present NewRouter Reachable.new rfl "GET".toList "/test".toList
    idleHandler rfl (by decide)

/-- C1 (counterexample): on a fresh router, after `AddRoute(GET, "/a/../b", h)`
with a present handler, `FindHandler(GET, "/a/../b")` returns no handler: the
route is stored under `b`, the lookup walks `a`, `..`, `b`. -/
theorem AddRoute_then_FindHandler_dotdot_absent :
    Reachable (NewRouter : Router Unit Nat) ∧
    (NewRouter : Router Unit Nat).groupBasePath = [] ∧ idleHandler.isSome = true ∧
    (FindHandler (AddRoute (NewRouter : Router Unit Nat) "GET".toList "/a/../b".toList
      idleHandler) "GET".toList "/a/../b".toList).1.isSome = false ∧
    (FindHandler (AddRoute (NewRouter : Router Unit Nat) "GET".toList "/a/../b".toList
      idleHandler) "GET".toList "/b".toList).1.isSome = true :=
  ⟨Reachable.new, by decide⟩

/-- C2 (code at the failing input): after `AddRoute(GET, "/users/:id", h)` on a
fresh router, `FindHandler(GET, "/users/42")` returns a present handler, but the
bindings map the empty name to `42` and hold no entry for `id`. -/
theorem FindHandler_binds_empty_name :
    (FindHandler (AddRoute (NewRouter : Router Unit Nat) "GET".toList "/users/:id".toList
      idleHandler) "GET".toList "/users/42".toList).1.isSome = true ∧
    (FindHandler (AddRoute (NewRouter : Router Unit Nat) "GET".toList "/users/:id".toList
      idleHandler) "GET".toList "/users/42".toList).2 = [([], "42".toList)] ∧
    mapGet (FindHandler (AddRoute (NewRouter : Router Unit Nat) "GET".toList
      "/users/:id".toList idleHandler) "GET".toList "/users/42".toList).2 "id".toList = none := by
  decide

end Registration

section Precedence

variable {Env W : Type}

theorem hasColon_paramKey : hasColon paramKey = true := by decide

theorem segments_append_part (P s : Str) (hs1 : s ≠ []) (hs2 : '/' ∉ s) :
    segments (P ++ '/' :: s) = segments P ++ [s] := by
  rw [segments_append_slash, segments_of_noSlash s hs1 hs2]

theorem map_routeKey_literal (l : List Str) (h : ∀ x, x ∈ l → hasColon x = false) :
    l.map routeKey = l := by
  induction l with
  | nil => rfl
  | cons x xs ih =>
    simp only [List.map_cons, routeKey_of_not_colon x (h x (by simp))]
    rw [ih (fun y hy => h y (List.mem_cons_of_mem _ hy))]

/-- C3 (amended): at top level with no middleware, for a literal prefix `P` and a
literal part `s`, none of their parts being `.` or `..`, and a parameter name
without slash: once `P/:x` and `P/s` are both registered for a method, in either
order, `FindHandler` on `P/s` returns the handler of `P/s` and no bindings. -/
theorem literal_precedence (r : Router Env W) (htop : r.groupBasePath = [])
    (hg : r.globalMiddleware = []) (hq : r.groupMiddleware = [])
    (m P x s : Str) (hp hl : HandlerFunc Env W)
    (hP : ∀ part, part ∈ segments P → plainPart part ∧ hasColon part = false)
    (hx : '/' ∉ x) (hs1 : s ≠ []) (hs2 : '/' ∉ s) (hs3 : plainPart s)
    (hs4 : hasColon s = false) :
    FindHandler (AddRoute (AddRoute r m (P ++ '/' :: ':' :: x) hp) m (P ++ '/' :: s) hl) m
        (P ++ '/' :: s) = (hl, []) ∧
    FindHandler (AddRoute (AddRoute r m (P ++ '/' :: s) hl) m (P ++ '/' :: ':' :: x) hp) m
        (P ++ '/' :: s) = (hl, []) := by
  have hx1 : (':' :: x) ≠ [] := by simp
  have hx2 : '/' ∉ (':' :: x) := by
    intro hmem
    rcases List.mem_cons.1 hmem with h | h
    · exact absurd h (by decide)
    · exact hx h
  have hx3 : plainPart (':' :: x) := by
    constructor <;> intro h <;> simp at h
  have hsegS : segments (P ++ '/' :: s) = segments P ++ [s] := segments_append_part P s hs1 hs2
  have hsegX : segments (P ++ '/' :: ':' :: x) = segments P ++ [':' :: x] :=
    segments_append_part P _ hx1 hx2
  have hplainS : ∀ y, y ∈ segments (P ++ '/' :: s) → plainPart y := by
    intro y hy
    rw [hsegS] at hy
    rcases List.mem_append.1 hy with h | h
    · exact (hP y h).1
    · simp at h; subst h; exact hs3
  have hplainX : ∀ y, y ∈ segments (P ++ '/' :: ':' :: x) → plainPart y := by
    intro y hy
    rw [hsegX] at hy
    rcases List.mem_append.1 hy with h | h
    · exact (hP y h).1
    · simp at h; subst h; exact hx3
  have hfullS : segments (Join [[], P ++ '/' :: s]) = segments P ++ [s] := by
    rw [segments_Join_top _ hplainS, hsegS]
  have hfullX : segments (Join [[], P ++ '/' :: ':' :: x]) = segments P ++ [':' :: x] := by
    rw [segments_Join_top _ hplainX, hsegX]
  have hne : ∀ y, y ∈ segments P ++ [s] → y ≠ [] := by
    intro y hy
    rw [← hsegS] at hy
    exact mem_segments_ne_nil _ y hy
  have hlit : ∀ y, y ∈ segments P ++ [s] → hasColon y = false := by
    intro y hy
    rcases List.mem_append.1 hy with h | h
    · exact (hP y h).2
    · simp at h; subst h; exact hs4
  have hkeys : (segments P ++ [s]).map routeKey = segments P ++ [s] :=
    map_routeKey_literal _ hlit
  have hsk : s ≠ routeKey (':' :: x) := by
    intro h
    have h2 : routeKey (':' :: x) = paramKey := by simp [routeKey, hasColon]
    rw [h2] at h
    rw [h, hasColon_paramKey] at hs4
    exact Bool.noConfusion hs4
  constructor
  · obtain ⟨n2, hd, he, hget⟩ := descend_addWalk m hl (segments P ++ [s])
      (AddRoute r m (P ++ '/' :: ':' :: x) hp).root hne
    rw [hkeys] at hd
    apply FindHandler_eq_of_walk _ m _ n2 [] hl _ he hget
    rw [hsegS]
    apply findWalk_literal _ _ _ _ hne
    rw [AddRoute_root, AddRoute_groupBasePath, htop, hfullS,
      wrapWithMiddleware_none _ hl (by simpa [AddRoute_globalMiddleware] using hg)
        (by simpa [AddRoute_groupMiddleware] using hq)]
    exact hd
  · obtain ⟨n2, hd, he, hget⟩ := descend_addWalk m hl (segments P ++ [s]) r.root hne
    rw [hkeys] at hd
    apply FindHandler_eq_of_walk _ m _ n2 [] hl _ he hget
    rw [hsegS]
    apply findWalk_literal _ _ _ _ hne
    rw [AddRoute_root, AddRoute_groupBasePath, htop, hfullX, AddRoute_root, htop, hfullS,
      wrapWithMiddleware_none r hl hg hq]
    have hdiv := descend_addWalk_diverge m
      (wrapWithMiddleware (AddRoute r m (P ++ '/' :: s) hl) hp) (segments P) (':' :: x) [] s []
      (addWalk m hl (segments P ++ [s]) r.root)
      (fun y hy => hne y (List.mem_append_left _ hy)) hx1 hsk
    rw [map_routeKey_literal _ (fun y hy => hlit y (List.mem_append_left _ hy))] at hdiv
    rw [hdiv]
    exact hd

/-- C3 (witness): `GET /users/:id` and `GET /users/me` on a fresh router; the
lookup of `GET /users/me` returns the literal route and binds nothing. -/
theorem literal_precedence_witness :
    FindHandler (AddRoute (AddRoute (NewRouter : Router Unit Nat) "GET".toList
        ("/users".toList ++ '/' :: ':' :: "id".toList) idleHandler) "GET".toList
        ("/users".toList ++ '/' :: "me".toList) otherHandler) "GET".toList
        ("/users".toList ++ '/' :: "me".toList) = (otherHandler, []) ∧
    FindHandler (AddRoute (AddRoute (NewRouter : Router Unit Nat) "GET".toList
        ("/users".toList ++ '/' :: "me".toList) otherHandler) "GET".toList
        ("/users".toList ++ '/' :: ':' :: "id".toList) idleHandler) "GET".toList
        ("/users".toList ++ '/' :: "me".toList) = (otherHandler, []) :=
  literal_precedence NewRouter rfl rfl rfl "GET".toList "/users".toList "id".toList "me".toList
    idleHandler otherHandler (by decide) (by decide) (by decide) (by decide) (by decide)
    (by decide)

/-- C3 (counterexample): with the literal part `..`, registering `GET /users/:id`
and `GET /users/..` and looking up `GET /users/..` returns the handler of the
parameter route and binds the value `..`. -/
theorem literal_precedence_dotdot :
    (FindHandler (AddRoute (AddRoute (NewRouter : Router Unit Nat) "GET".toList
        "/users/:id".toList idleHandler) "GET".toList "/users/..".toList otherHandler)
        "GET".toList "/users/..".toList).2 = [([], "..".toList)] ∧
    (FindHandler (AddRoute (AddRoute (NewRouter : Router Unit Nat) "GET".toList
        "/users/:id".toList idleHandler) "GET".toList "/users/..".toList otherHandler)
        "GET".toList "/users/..".toList).1.map (fun f => f [] () 0) = some 0 ∧
    idleHandler.map (fun f => f [] () 0) = some 0 ∧
    otherHandler.map (fun f => f [] () 0) = some 1 := by
  decide

end Precedence

section Middleware

variable {Env W : Type}

theorem composeRight_append (l1 l2 : List (MiddlewareFunc Env W)) (h : HandlerFunc Env W) :
    composeRight (l1 ++ l2) h = composeRight l1 (composeRight l2 h) := by
  simp [composeRight, List.foldr_append]

theorem wrapLoop_eq_composeRight (all : List (MiddlewareFunc Env W)) (k : Nat)
    (h : HandlerFunc Env W) (hk : k ≤ all.length) :
    wrapLoop all k h = composeRight (all.take k) h := by
  induction k generalizing h with
  | zero => simp [wrapLoop, composeRight]
  | succ i ih =>
    have hi : i < all.length := hk
    have hget : all[i]? = some all[i] := List.getElem?_eq_getElem hi
    rw [wrapLoop, hget]
    simp only []
    rw [ih _ (Nat.le_of_lt hi), List.take_succ, hget, composeRight_append]
    rfl

theorem wrapWithMiddleware_eq_composeRight (r : Router Env W) (h : HandlerFunc Env W) :
    wrapWithMiddleware r h = composeRight (r.globalMiddleware ++ r.groupMiddleware) h := by
  unfold wrapWithMiddleware
  simp only []
  rw [wrapLoop_eq_composeRight _ _ _ (Nat.le_refl _), List.take_length]

theorem composeRight_trace {T : Type} (tags : List T) (t : T) (params : HandlerParams)
    (env : Env) (w : List T) :
    (composeRight (tags.map traceMiddleware) (some (traceHandler t))).map
      (fun f => f params env w) = some (w ++ tags ++ [t]) := by
  induction tags generalizing w with
  | nil => simp [composeRight, traceHandler]
  | cons a tags ih =>
    have ih2 := ih (w ++ [a])
    simp only [composeRight, List.map_cons, List.foldr_cons, Option.map_some'] at ih2 ⊢
    cases hnext : List.foldr
        (fun (middleware : MiddlewareFunc Env (List T)) (next : HandlerFunc Env (List T)) =>
          (some (fun params env => middleware params env next) : HandlerFunc Env (List T)))
        (some (traceHandler t)) (List.map traceMiddleware tags) with
    | none =>
      rw [hnext] at ih2
      simp at ih2
    | some f =>
      rw [hnext] at ih2
      simp only [Option.map_some', Option.some.injEq] at ih2
      simp only [traceMiddleware, ih2, Option.some.injEq]
      simp

/-- C4: the handler stored by `AddRoute` is the right fold of the global
middleware followed by the group middleware around the raw handler; when every
middleware records its tag and invokes its continuation, the recorded order is
the global tags, the group tags, then the handler. -/
theorem middleware_ordering {T : Type} (r : Router Env W) (h : HandlerFunc Env W)
    (m p : Str) (root : Node (HandlerFunc Env (List T))) (base : Str) (gs qs : List T) (t : T)
    (params : HandlerParams) (env : Env) (w : List T) :
    wrapWithMiddleware r h = composeRight (r.globalMiddleware ++ r.groupMiddleware) h ∧
    (AddRoute r m p h).root =
      addWalk m (composeRight (r.globalMiddleware ++ r.groupMiddleware) h)
        (segments (Join [r.groupBasePath, p])) r.root ∧
    (wrapWithMiddleware
        { root := root, groupBasePath := base, globalMiddleware := gs.map traceMiddleware,
          groupMiddleware := qs.map traceMiddleware }
        (some (traceHandler t))).map (fun f => f params env w) = some (w ++ gs ++ qs ++ [t]) := by
  refine ⟨wrapWithMiddleware_eq_composeRight r h, ?_, ?_⟩
  · rw [AddRoute_root, wrapWithMiddleware_eq_composeRight]
  · rw [wrapWithMiddleware_eq_composeRight]
    simp only []
    rw [← List.map_append, composeRight_trace]
    simp

theorem composeRight_of_ignoring (l : List (MiddlewareFunc Env W)) (mw : MiddlewareFunc Env W)
    (hmem : mw ∈ l) (hign : ∀ params env next next2, mw params env next = mw params env next2)
    (h h2 : HandlerFunc Env W) : composeRight l h = composeRight l h2 := by
  induction l with
  | nil => simp at hmem
  | cons a l ih =>
    simp only [composeRight, List.foldr_cons, Option.some.injEq]
    rcases List.mem_cons.1 hmem with heq | hin
    · subst heq
      funext params env
      exact hign _ _ _ _
    · have := ih hin
      simp only [composeRight] at this
      rw [this]

/-- C5: if some middleware in effect at registration behaves the same for every
continuation, the handler produced by `wrapWithMiddleware` is the same for
every raw handler. -/
theorem short_circuit (r : Router Env W) (mw : MiddlewareFunc Env W)
    (hmem : mw ∈ r.globalMiddleware ++ r.groupMiddleware)
    (hign : ∀ params env next next2, mw params env next = mw params env next2)
    (h h2 : HandlerFunc Env W) :
    wrapWithMiddleware r h = wrapWithMiddleware r h2 := by
  rw [wrapWithMiddleware_eq_composeRight, wrapWithMiddleware_eq_composeRight]
  exact composeRight_of_ignoring _ mw hmem hign h h2

/-- C5 (witness): behind a blocking global middleware, the incrementing handler
and the idle handler give the same stored handler. -/
theorem short_circuit_witness :
    wrapWithMiddleware (Use (NewRouter : Router Unit Nat) blockMiddleware) otherHandler =
      wrapWithMiddleware (Use (NewRouter : Router Unit Nat) blockMiddleware) idleHandler :=
  short_circuit (Use NewRouter blockMiddleware) blockMiddleware (by simp [Use, NewRouter])
    (fun _ _ _ _ => rfl) otherHandler idleHandler

/-- C6: `Use` appends to `globalMiddleware` and changes nothing else; every
lookup returns the same handler and the same bindings after it as before. -/
theorem Use_frame (r : Router Env W) (mw : MiddlewareFunc Env W) (m p : Str) :
    FindHandler (Use r mw) m p = FindHandler r m p ∧ (Use r mw).root = r.root ∧
    (Use r mw).groupBasePath = r.groupBasePath ∧
    (Use r mw).groupMiddleware = r.groupMiddleware ∧
    (Use r mw).globalMiddleware = r.globalMiddleware ++ [mw] :=
  ⟨rfl, rfl, rfl, rfl, rfl⟩

theorem foldl_GroupUse (mws : List (MiddlewareFunc Env W)) (r : Router Env W) :
    mws.foldl GroupUse r = { r with groupMiddleware := r.groupMiddleware ++ mws } := by
  induction mws generalizing r with
  | nil => simp
  | cons a mws ih =>
    simp only [List.foldl_cons, ih]
    simp [GroupUse]

/-- C7: after `Group` returns, and after `Mount` returns, `groupBasePath` and
`groupMiddleware` hold their values from before the call, whatever the
callback did; a route registered afterwards is wrapped with the group
middleware from before the call, and a `Group.Use` at the end of the callback
leaves no trace in the router. -/
theorem Group_restores (r : Router Env W) (basePath : Str) (fn : Router Env W → Router Env W)
    (routes : List (Route Env W)) (otherRouter : Router Env W) (mw : MiddlewareFunc Env W)
    (h : HandlerFunc Env W) :
    (Group r basePath fn).groupBasePath = r.groupBasePath ∧
    (Group r basePath fn).groupMiddleware = r.groupMiddleware ∧
    (MountRoutes r basePath routes).groupBasePath = r.groupBasePath ∧
    (MountRoutes r basePath routes).groupMiddleware = r.groupMiddleware ∧
    (Mount r basePath otherRouter).groupBasePath = r.groupBasePath ∧
    (Mount r basePath otherRouter).groupMiddleware = r.groupMiddleware ∧
    wrapWithMiddleware (Group r basePath fn) h =
      composeRight ((Group r basePath fn).globalMiddleware ++ r.groupMiddleware) h ∧
    Group r basePath (fun g => GroupUse (fn g) mw) = Group r basePath fn :=
  ⟨rfl, rfl, rfl, rfl, rfl, rfl, wrapWithMiddleware_eq_composeRight _ h, rfl⟩

/-- C8: a route registered inside `Group`, after the middleware `mws` was added
with `Group.Use` in that call, is stored wrapped with the global middleware
followed by `mws`, whatever group middleware the enclosing scope has; and the
trie a `Group` call produces does not depend on the enclosing group
middleware. -/
theorem Group_no_inheritance (r : Router Env W) (basePath : Str)
    (mws outer : List (MiddlewareFunc Env W)) (m p : Str) (h : HandlerFunc Env W)
    (fn : Router Env W → Router Env W) :
    (Group r basePath (fun g => AddRoute (mws.foldl GroupUse g) m p h)).root =
      addWalk m (composeRight (r.globalMiddleware ++ mws) h)
        (segments (Join [Join [r.groupBasePath, basePath], p])) r.root ∧
    (Group { r with groupMiddleware := outer } basePath fn).root = (Group r basePath fn).root ∧
    (Group { r with groupMiddleware := outer } basePath fn).globalMiddleware =
      (Group r basePath fn).globalMiddleware := by
  refine ⟨?_, rfl, rfl⟩
  simp only [Group, foldl_GroupUse, AddRoute_root, wrapWithMiddleware_eq_composeRight]
  simp

end Middleware

section MountAndNormalization

variable {Env W : Type}

theorem foldl_AddRoute_groupBasePath (routes : List (Route Env W)) (r : Router Env W) :
    (routes.foldl (fun acc route => AddRoute acc route.1 route.2.1 route.2.2) r).groupBasePath =
      r.groupBasePath := by
  induction routes generalizing r with
  | nil => rfl
  | cons route rest ih => simp only [List.foldl_cons, ih, AddRoute_groupBasePath]

theorem foldl_AddRoute_keeps (routes : List (Route Env W)) (r : Router Env W) (m : Str)
    (ks : List Str) (n1 : Node (HandlerFunc Env W))
    (hpres : ∀ route, route ∈ routes → route.2.2.isSome = true)
    (hd : descend ks r.root = some n1)
    (hs : Serves (fun h : HandlerFunc Env W => h.isSome = true) m n1) :
    ∃ n2, descend ks
        (routes.foldl (fun acc route => AddRoute acc route.1 route.2.1 route.2.2) r).root =
          some n2 ∧
      Serves (fun h : HandlerFunc Env W => h.isSome = true) m n2 := by
  induction routes generalizing r n1 with
  | nil => exact ⟨n1, hd, hs⟩
  | cons route rest ih =>
    obtain ⟨n2, h1, h2⟩ := descend_addWalk_serves
      (fun h : HandlerFunc Env W => h.isSome = true) m ks r.root n1 hd hs route.1
      (wrapWithMiddleware r route.2.2) (segments (Join [r.groupBasePath, route.2.1]))
      (wrapWithMiddleware_isSome r _ (hpres route (by simp)))
    exact ih (AddRoute r route.1 route.2.1 route.2.2) n2
      (fun x hx => hpres x (List.mem_cons_of_mem _ hx)) h1 h2

/-- After a run of `AddRoute` calls with present handlers, the key path of each
of the routes leads to a node serving its method. -/
theorem foldl_AddRoute_serves (routes : List (Route Env W)) (r : Router Env W)
    (hpres : ∀ route, route ∈ routes → route.2.2.isSome = true)
    (route : Route Env W) (hmem : route ∈ routes) :
    ∃ n2, descend ((segments (Join [r.groupBasePath, route.2.1])).map routeKey)
        (routes.foldl (fun acc route => AddRoute acc route.1 route.2.1 route.2.2) r).root =
          some n2 ∧
      Serves (fun h : HandlerFunc Env W => h.isSome = true) route.1 n2 := by
  induction routes generalizing r with
  | nil => simp at hmem
  | cons x rest ih =>
    have hrest : ∀ y, y ∈ rest → y.2.2.isSome = true :=
      fun y hy => hpres y (List.mem_cons_of_mem _ hy)
    by_cases hin : route ∈ rest
    · have := ih (AddRoute r x.1 x.2.1 x.2.2) hrest hin
      simpa [AddRoute_groupBasePath] using this
    · have hx : route = x := by
        rcases List.mem_cons.1 hmem with h | h
        · exact h
        · exact absurd h hin
      subst hx
      obtain ⟨n1, hd, he, hget⟩ := descend_addWalk route.1 (wrapWithMiddleware r route.2.2)
        (segments (Join [r.groupBasePath, route.2.1])) r.root (mem_segments_ne_nil _)
      exact foldl_AddRoute_keeps rest (AddRoute r route.1 route.2.1 route.2.2) route.1 _ n1
        hrest hd ⟨he, _, hget, wrapWithMiddleware_isSome r _ (hpres route (by simp))⟩

/-- C9 (amended): for every reachable router `A`, every router `B` all of whose
enumerated handlers are present, every base path and every order in which
`Mount` enumerates `B.Routes()`, each enumerated route is resolvable on `A` after
the mount: `FindHandler` on the method and the join of the group base path of
`A`, the base path and the route path returns a present handler. -/
theorem Mount_resolvable (A : Router Env W) (hA : Reachable A) (basePath : Str)
    (B : Router Env W) (routes : List (Route Env W)) (hperm : routes.Perm (Routes B))
    (hpres : ∀ route, route ∈ Routes B → route.2.2.isSome = true)
    (route : Route Env W) (hmem : route ∈ Routes B) :
    (FindHandler (MountRoutes A basePath routes) route.1
      (Join [A.groupBasePath, basePath, route.2.1])).1.isSome = true := by
  have hpres2 : ∀ x, x ∈ routes → x.2.2.isSome = true :=
    fun x hx => hpres x (hperm.mem_iff.1 hx)
  have hmem2 : route ∈ routes := hperm.mem_iff.2 hmem
  have hk0 : KeysOK A.root := Reachable_KeysOK A hA
  obtain ⟨n2, hd, hs⟩ := foldl_AddRoute_serves routes
    { A with groupBasePath := Join [A.groupBasePath, basePath] } hpres2 route hmem2
  have hk : KeysOK (MountRoutes A basePath routes).root :=
    foldl_AddRoute_KeysOK routes { A with groupBasePath := Join [A.groupBasePath, basePath] } hk0
  apply FindHandler_present_of_walk _ _ _ n2 _ hs
  apply findWalk_of_descend _ _ _ _ hk (mem_segments_ne_nil _)
  rw [← segments_Join_assoc]
  exact hd

/-- C9 (witness): `B` holds `GET /ping`; after `A.Mount("/api", B)` on a fresh
`A`, `FindHandler(GET, "/api/ping")` is present. -/
theorem Mount_resolvable_witness :
    (FindHandler (Mount (NewRouter : Router Unit Nat) "/api".toList
        (AddRoute NewRouter "GET".toList "/ping".toList idleHandler))
      "GET".toList "/api/ping".toList).1.isSome = true :=
  Mount_resolvable (NewRouter : Router Unit Nat) Reachable.new "/api".toList
    (AddRoute NewRouter "GET".toList "/ping".toList idleHandler)
    (Routes (AddRoute NewRouter "GET".toList "/ping".toList idleHandler)) (List.Perm.refl _)
    (fun route hr => by
      have hroute : route = ("GET".toList, "ping".toList, idleHandler) := List.mem_singleton.1 hr
      rw [hroute]
      rfl)
    ("GET".toList, "ping".toList, idleHandler) (List.mem_singleton.2 rfl)

/-- C9 (counterexample): `B` holds `GET /ping` with a nil handler; `B.Routes()`
enumerates that route, and after `A.Mount("/api", B)` on a fresh `A` the lookup
of `GET /api/ping` returns no handler. -/
theorem Mount_nil_handler_absent :
    Routes (AddRoute (NewRouter : Router Unit Nat) "GET".toList "/ping".toList none) =
      [("GET".toList, "ping".toList, none)] ∧
    Join [(NewRouter : Router Unit Nat).groupBasePath, "/api".toList, "ping".toList] =
      "/api/ping".toList ∧
    (FindHandler (Mount (NewRouter : Router Unit Nat) "/api".toList
        (AddRoute NewRouter "GET".toList "/ping".toList none))
      "GET".toList "/api/ping".toList).1.isSome = false :=
  ⟨rfl, by decide, by decide⟩

theorem segments_Join_congr (g p q : Str) (hseg : segments p = segments q)
    (hplain : ∀ x, x ∈ segments p → plainPart x) :
    segments (Join [g, p]) = segments (Join [g, q]) := by
  by_cases hg : g = []
  · subst hg
    rw [segments_Join_top p hplain, segments_Join_top q (by rw [← hseg]; exact hplain), hseg]
  · have h1 : concatAll [g, p] ≠ [] := by simp [concatAll, hg]
    have h2 : concatAll [g, q] ≠ [] := by simp [concatAll, hg]
    have hr1 : isRooted (concatAll [g, p]) = isRooted g := by
      simp only [concatAll]
      exact isRooted_append _ _ hg
    have hr2 : isRooted (concatAll [g, q]) = isRooted g := by
      simp only [concatAll]
      exact isRooted_append _ _ hg
    rw [segments_Join, segments_Join, if_neg h1, if_neg h2, hr1, hr2]
    simp [segmentsAll, hseg]

/-- C10: two paths with the same non-empty parts, none of them `.` or `..`,
register to the same router state and resolve to the same result on every
router. -/
theorem normalization (r : Router Env W) (m : Str) (h : HandlerFunc Env W) (p q : Str)
    (hseg : segments p = segments q) (hplain : ∀ x, x ∈ segments p → plainPart x) :
    AddRoute r m p h = AddRoute r m q h ∧
    ∀ (r2 : Router Env W) (m2 : Str), FindHandler r2 m2 p = FindHandler r2 m2 q := by
  constructor
  · have hj := segments_Join_congr r.groupBasePath p q hseg hplain
    simp only [segments] at hj
    simp only [AddRoute, hj]
  · intro r2 m2
    have hs : sanitize (Split p) = sanitize (Split q) := hseg
    simp only [FindHandler, hs]

/-- C10 (witness): `a/b/` and `//a//b`. -/
theorem normalization_witness :
    AddRoute (NewRouter : Router Unit Nat) "GET".toList "a/b/".toList idleHandler =
      AddRoute NewRouter "GET".toList "//a//b".toList idleHandler ∧
    ∀ (r2 : Router Unit Nat) (m2 : Str),
      FindHandler r2 m2 "a/b/".toList = FindHandler r2 m2 "//a//b".toList :=
  normalization NewRouter "GET".toList idleHandler "a/b/".toList "//a//b".toList
    (by decide) (by decide)

end MountAndNormalization

section RoundTrip

variable {Env W : Type}

theorem FindHandler_fst_of_walk (r : Router Env W) (m p : Str) (n2 : Node (HandlerFunc Env W))
    (h : HandlerFunc Env W) (hw : (findWalk (segments p) r.root []).1 = some n2)
    (he : n2.isEnd = true) (hh : mapGet n2.handlers m = some h) :
    (FindHandler r m p).1 = h := by
  cases hfw : findWalk (segments p) r.root [] with
  | mk found params =>
    rw [hfw] at hw
    simp only at hw
    subst hw
    rw [FindHandler_eq_of_walk r m p n2 params h hfw he hh]

theorem segmentsAll_ne_nil (es : List Str) (hne : concatAll es ≠ [])
    (hr : isRooted (concatAll es) = false) : segmentsAll es ≠ [] := by
  induction es with
  | nil => exact absurd rfl hne
  | cons e es ih =>
    by_cases he : e = []
    · subst he
      simp only [concatAll, List.nil_append] at hne hr
      simpa [segmentsAll, segments_nil] using ih hne hr
    · simp only [concatAll] at hr
      rw [isRooted_append _ _ he] at hr
      have : segments e ≠ [] := by
        apply segments_ne_nil_of_head e he
        intro hh
        simp [isRooted, hh] at hr
      simp [segmentsAll, this]

/-- Joining elements whose parts are all plain keeps exactly those parts. -/
theorem segments_Join_plain (es : List Str) (h : ∀ x, x ∈ segmentsAll es → plainPart x) :
    segments (Join es) = segmentsAll es := by
  rw [segments_Join]
  by_cases hc : concatAll es = []
  · simp only [hc, if_true]
    clear h
    induction es with
    | nil => rfl
    | cons e es ih =>
      simp only [concatAll, List.append_eq_nil] at hc
      simp [segmentsAll, hc.1, segments_nil, ih hc.2]
  · simp only [hc, if_false]
    apply cleanOut_plain _ _ h
    intro hr
    exact segmentsAll_ne_nil es hc hr

/-- C20: in every reachable router state every child key is the reserved key
or does not start with the parameter sigil; and at top level with no middleware,
for a path without `.` and `..` parts, `FindHandler` returns exactly the handler
given to `AddRoute` just before. -/
theorem exact_round_trip (r : Router Env W) (hr : Reachable r) :
    KeysOK r.root ∧
    ∀ (m p : Str) (h : HandlerFunc Env W), r.groupBasePath = [] → r.globalMiddleware = [] →
      r.groupMiddleware = [] → (∀ x, x ∈ segments p → plainPart x) →
      (FindHandler (AddRoute r m p h) m p).1 = h := by
  refine ⟨Reachable_KeysOK r hr, ?_⟩
  intro m p h htop hg hq hp
  have hk : KeysOK (AddRoute r m p h).root :=
    Reachable_KeysOK _ (Reachable.run r _ hr (Callback.addRoute _ m p h Callback.done))
  have hsegs : segments (Join [r.groupBasePath, p]) = segments p := by
    rw [htop]
    exact segments_Join_top p hp
  obtain ⟨n2, hd, he, hget⟩ :=
    descend_addWalk m (wrapWithMiddleware r h) (segments p) r.root (mem_segments_ne_nil p)
  rw [wrapWithMiddleware_none r h hg hq] at hd hget
  have hroot : (AddRoute r m p h).root = addWalk m h (segments p) r.root := by
    rw [AddRoute_root, hsegs, wrapWithMiddleware_none r h hg hq]
  apply FindHandler_fst_of_walk _ m p n2 h _ he hget
  apply findWalk_of_descend _ _ _ _ hk (mem_segments_ne_nil p)
  rw [hroot]
  exact hd

/-- C20 (witness): `GET /users/:id` on a fresh router. -/
theorem exact_round_trip_witness :
    KeysOK (NewRouter : Router Unit Nat).root ∧
    (FindHandler (AddRoute (NewRouter : Router Unit Nat) "GET".toList "/users/:id".toList
      otherHandler) "GET".toList "/users/:id".toList).1 = otherHandler :=
  ⟨(exact_round_trip (NewRouter : Router Unit Nat) Reachable.new).1,
    (exact_round_trip (NewRouter : Router Unit Nat) Reachable.new).2 "GET".toList
      "/users/:id".toList otherHandler rfl rfl rfl (by decide)⟩

theorem FindHandler_root (r : Router Env W) (m p : Str) (hp : segments p = []) :
    FindHandler r m p =
      if r.root.isEnd then
        match mapGet r.root.handlers m with
        | some handler => (handler, [])
        | none => (none, [])
      else (none, []) := by
  have hs : sanitize (Split p) = [] := hp
  simp only [FindHandler, hs, findWalk]

/-- C17: the empty path and `/` resolve to the root node with empty bindings;
the lookup is present exactly when the root is marked as an end and stores a
present handler for the method; and `AddRoute` with the empty path at top level
stores the (middleware-wrapped) handler at the root, which both lookups then
return: the raw handler itself when no middleware is in effect. -/
theorem empty_path_root (r : Router Env W) (m : Str) (h : HandlerFunc Env W) :
    FindHandler r m [] = FindHandler r m ['/'] ∧ (FindHandler r m []).2 = [] ∧
    ((FindHandler r m []).1.isSome = true ↔
      (r.root.isEnd = true ∧ ∃ f, mapGet r.root.handlers m = some (some f))) ∧
    (r.groupBasePath = [] →
      (AddRoute r m [] h).root =
        Node.mk r.root.children true (mapSet r.root.handlers m (wrapWithMiddleware r h))
          r.root.parameterName ∧
      FindHandler (AddRoute r m [] h) m [] = (wrapWithMiddleware r h, []) ∧
      FindHandler (AddRoute r m [] h) m ['/'] = (wrapWithMiddleware r h, []) ∧
      (r.globalMiddleware = [] → r.groupMiddleware = [] →
        FindHandler (AddRoute r m [] h) m [] = (h, []) ∧
        FindHandler (AddRoute r m [] h) m ['/'] = (h, []))) := by
  have hs1 : segments ([] : Str) = [] := segments_nil
  have hs2 : segments ['/'] = [] := by decide
  refine ⟨?_, ?_, ?_, ?_⟩
  · rw [FindHandler_root r m [] hs1, FindHandler_root r m ['/'] hs2]
  · rw [FindHandler_root r m [] hs1]
    split
    · split <;> rfl
    · rfl
  · rw [FindHandler_root r m [] hs1]
    cases he : r.root.isEnd with
    | false =>
      constructor
      · intro h1
        exact Bool.noConfusion h1
      · intro h1
        exact Bool.noConfusion h1.1
    | true =>
      cases hg : mapGet r.root.handlers m with
      | none =>
        constructor
        · intro h1
          exact Bool.noConfusion h1
        · rintro ⟨_, f, hf⟩
          exact Option.noConfusion hf
      | some hh =>
        cases hh with
        | none =>
          constructor
          · intro h1
            exact Bool.noConfusion h1
          · rintro ⟨_, f, hf⟩
            exact Option.noConfusion (Option.some.inj hf)
        | some f =>
          constructor
          · intro _
            exact ⟨rfl, f, rfl⟩
          · intro _
            rfl
  · intro htop
    have hroot : (AddRoute r m [] h).root =
        Node.mk r.root.children true (mapSet r.root.handlers m (wrapWithMiddleware r h))
          r.root.parameterName := by
      rw [AddRoute_root, htop, Join_eq_nil [[], []] (by simp [concatAll]), segments_nil,
        addWalk_nil]
    have h1 : FindHandler (AddRoute r m [] h) m [] = (wrapWithMiddleware r h, []) := by
      rw [FindHandler_root _ m [] hs1, hroot]
      simp [mapGet_mapSet_same]
    have h2 : FindHandler (AddRoute r m [] h) m ['/'] = (wrapWithMiddleware r h, []) := by
      rw [FindHandler_root _ m ['/'] hs2, hroot]
      simp [mapGet_mapSet_same]
    refine ⟨hroot, h1, h2, ?_⟩
    intro hg hq
    rw [h1, h2, wrapWithMiddleware_none r h hg hq]
    exact ⟨rfl, rfl⟩

/-- C17 (witness): the empty path on a fresh router. -/
theorem empty_path_root_witness :
    FindHandler (AddRoute (NewRouter : Router Unit Nat) "GET".toList [] otherHandler)
      "GET".toList [] = (otherHandler, []) ∧
    FindHandler (AddRoute (NewRouter : Router Unit Nat) "GET".toList [] otherHandler)
      "GET".toList ['/'] = (otherHandler, []) :=
  ((empty_path_root (NewRouter : Router Unit Nat) "GET".toList otherHandler).2.2.2 rfl).2.2.2
    rfl rfl

/-- C14 (amended): for a path without `.` and `..` parts, `FindHandler` walks
the same parts as `AddRoute` with empty base path, and looking up the path gives
the same result as looking up its joined (cleaned) form. -/
theorem lookup_walk_plain (p : Str) (hp : ∀ x, x ∈ segments p → plainPart x) :
    sanitize (Split (Join [[], p])) = sanitize (Split p) ∧
    ∀ (r : Router Env W) (m : Str), FindHandler r m p = FindHandler r m (Join [[], p]) := by
  have hs : sanitize (Split (Join [[], p])) = sanitize (Split p) := segments_Join_top p hp
  refine ⟨hs, ?_⟩
  intro r m
  simp only [FindHandler, hs]

/-- C14 (witness): the path `//a//b/`. -/
theorem lookup_walk_plain_witness :
    sanitize (Split (Join [[], "//a//b/".toList])) = sanitize (Split "//a//b/".toList) ∧
    ∀ (r : Router Unit Nat) (m : Str),
      FindHandler r m "//a//b/".toList = FindHandler r m (Join [[], "//a//b/".toList]) :=
  lookup_walk_plain "//a//b/".toList (by decide)

/-- C14 (counterexample): for `/a/../b`, `AddRoute` walks `b` while
`FindHandler` walks `a`, `..`, `b`; after registering `GET /b` the lookup of
`GET /a/../b` returns no handler, the lookup of the cleaned path does. -/
theorem lookup_walk_dotdot :
    sanitize (Split (Join [[], "/a/../b".toList])) = ["b".toList] ∧
    sanitize (Split "/a/../b".toList) = ["a".toList, "..".toList, "b".toList] ∧
    (FindHandler (AddRoute (NewRouter : Router Unit Nat) "GET".toList "/b".toList idleHandler)
      "GET".toList "/a/../b".toList).1.isSome = false ∧
    (FindHandler (AddRoute (NewRouter : Router Unit Nat) "GET".toList "/b".toList idleHandler)
      "GET".toList (Clean "/a/../b".toList)).1.isSome = true := by
  decide

/-- C18 (counterexample): `GET /users/:id` makes the lookup of `GET /users/me`
present; registering `POST /users/me` with a present handler afterwards turns
that lookup into a miss. -/
theorem lookup_monotone_shadowed :
    otherHandler.isSome = true ∧
    (FindHandler (AddRoute (NewRouter : Router Unit Nat) "GET".toList "/users/:id".toList
      idleHandler) "GET".toList "/users/me".toList).1.isSome = true ∧
    (FindHandler (AddRoute (AddRoute (NewRouter : Router Unit Nat) "GET".toList
      "/users/:id".toList idleHandler) "POST".toList "/users/me".toList otherHandler)
      "GET".toList "/users/me".toList).1.isSome = false := by
  decide

end RoundTrip

section GroupPaths

variable {Env W : Type}

theorem segments_Join_pair_plain (a b : Str) (ha : ∀ x, x ∈ segments a → plainPart x)
    (hb : ∀ x, x ∈ segments b → plainPart x) :
    segments (Join [a, b]) = segments a ++ segments b := by
  rw [segments_Join_plain]
  · simp [segmentsAll]
  · intro x hx
    simp only [segmentsAll, List.append_nil, List.mem_append] at hx
    rcases hx with h | h
    · exact ha x h
    · exact hb x h

/-- C13: at top level (empty base path, no group middleware), for base paths
and a route path without `.` and `..` parts, registering inside `Group` gives
the same router state as registering the concatenated path directly, and nested
groups compose. -/
theorem group_prefixes (r : Router Env W) (htop : r.groupBasePath = [])
    (hq : r.groupMiddleware = []) (m : Str) (h : HandlerFunc Env W) (b p b1 b2 : Str)
    (hb : ∀ x, x ∈ segments b → plainPart x) (hp : ∀ x, x ∈ segments p → plainPart x)
    (hb1 : ∀ x, x ∈ segments b1 → plainPart x) (hb2 : ∀ x, x ∈ segments b2 → plainPart x) :
    Group r b (fun g => AddRoute g m p h) = AddRoute r m (b ++ '/' :: p) h ∧
    Group r b1 (fun g => Group g b2 (fun g2 => AddRoute g2 m p h)) =
      AddRoute r m (b1 ++ '/' :: (b2 ++ '/' :: p)) h := by
  have hnil : ∀ x, x ∈ segments ([] : Str) → plainPart x := by
    intro x hx
    simp [segments_nil] at hx
  have hcat : ∀ u v : Str, (∀ x, x ∈ segments u → plainPart x) →
      (∀ x, x ∈ segments v → plainPart x) → ∀ x, x ∈ segments (u ++ '/' :: v) → plainPart x := by
    intro u v hu hv x hx
    rw [segments_append_slash] at hx
    rcases List.mem_append.1 hx with h1 | h1
    · exact hu x h1
    · exact hv x h1
  have hj : ∀ u v : Str, (∀ x, x ∈ segments u → plainPart x) →
      (∀ x, x ∈ segments v → plainPart x) → ∀ x, x ∈ segments (Join [u, v]) → plainPart x := by
    intro u v hu hv x hx
    rw [segments_Join_pair_plain u v hu hv] at hx
    rcases List.mem_append.1 hx with h1 | h1
    · exact hu x h1
    · exact hv x h1
  have e1 : segments (Join [Join [[], b], p]) = segments (Join [[], b ++ '/' :: p]) := by
    rw [segments_Join_pair_plain _ _ (hj _ _ hnil hb) hp, segments_Join_pair_plain _ _ hnil hb,
      segments_Join_pair_plain _ _ hnil (hcat b p hb hp), segments_append_slash]
    simp
  have e2 : segments (Join [Join [Join [[], b1], b2], p]) =
      segments (Join [[], b1 ++ '/' :: (b2 ++ '/' :: p)]) := by
    rw [segments_Join_pair_plain _ _ (hj _ _ (hj _ _ hnil hb1) hb2) hp,
      segments_Join_pair_plain _ _ (hj _ _ hnil hb1) hb2,
      segments_Join_pair_plain _ _ hnil hb1,
      segments_Join_pair_plain _ _ hnil (hcat b1 _ hb1 (hcat b2 p hb2 hp)),
      segments_append_slash, segments_append_slash]
    simp
  simp only [segments] at e1 e2
  obtain ⟨root, gbp, gmw, qmw⟩ := r
  simp only at htop hq
  subst htop hq
  constructor
  · simp only [Group, AddRoute, wrapWithMiddleware, e1]
  · simp only [Group, AddRoute, wrapWithMiddleware, e2]

/-- C13 (witness): `Group("/api", AddRoute(GET, "/ping"))` and the nested
`Group("/api", Group("v1", AddRoute(GET, "/ping")))` on a fresh router. -/
theorem group_prefixes_witness :
    Group (NewRouter : Router Unit Nat) "/api".toList
        (fun g => AddRoute g "GET".toList "/ping".toList idleHandler) =
      AddRoute NewRouter "GET".toList ("/api".toList ++ '/' :: "/ping".toList) idleHandler ∧
    Group (NewRouter : Router Unit Nat) "/api".toList
        (fun g => Group g "v1".toList
          (fun g2 => AddRoute g2 "GET".toList "/ping".toList idleHandler)) =
      AddRoute NewRouter "GET".toList
        ("/api".toList ++ '/' :: ("v1".toList ++ '/' :: "/ping".toList)) idleHandler :=
  group_prefixes NewRouter rfl rfl "GET".toList idleHandler "/api".toList "/ping".toList
    "/api".toList "v1".toList (by decide) (by decide) (by decide) (by decide)

end GroupPaths

/-! ## Histories -/

section History

variable {Env W : Type}

theorem Logged_mono {H : Type} {L L2 : List Registration} {ks : List Str} {n : Node H}
    (h : Logged L ks n) (hsub : ∀ e, e ∈ L → e ∈ L2) : Logged L2 ks n :=
  ⟨fun m hh hget => ⟨hsub _ (h.1 m hh hget).1, (h.1 m hh hget).2⟩, h.2⟩

theorem LoggedBelow_NewNode {H : Type} (L : List Registration) (pre : List Str) :
    LoggedBelow L pre (NewNode : Node H) := by
  intro ks n hd
  cases ks with
  | nil =>
    simp only [descend_nil, Option.some.injEq] at hd
    subst hd
    constructor
    · intro m h hget
      simp [NewNode, mapGet] at hget
    · intro he
      simp [NewNode] at he
  | cons k ks =>
    rw [descend_NewNode_cons] at hd
    exact Option.noConfusion hd

theorem LoggedBelow_child {H : Type} {L : List Registration} {pre : List Str} {n : Node H}
    (h : LoggedBelow L pre n) (k : Str) (c : Node H) (hget : mapGet n.children k = some c) :
    LoggedBelow L (pre ++ [k]) c := by
  intro ks n2 hd
  have : descend (k :: ks) n = some n2 := by
    rw [descend_cons, hget]
    exact hd
  have h2 := h (k :: ks) n2 this
  simpa using h2

/-- The walk of `AddRoute` keeps the trie accounted for by the history extended
with the new registration. -/
theorem addWalk_LoggedBelow {H : Type} (m : Str) (h : H) (segs : List Str) (n : Node H)
    (L : List Registration) (pre : List Str) (hseg : ∀ x, x ∈ segs → x ≠ [])
    (hn : LoggedBelow L pre n) :
    LoggedBelow ((m, pre ++ segs.map routeKey) :: L) pre (addWalk m h segs n) := by
  induction segs generalizing n pre with
  | nil =>
    rw [addWalk_nil]
    intro ks n2 hd
    cases ks with
    | nil =>
      simp only [descend_nil, Option.some.injEq] at hd
      subst hd
      have hold := hn [] n rfl
      constructor
      · intro m2 h2 hget
        simp only [Node.handlers_mk] at hget
        refine ⟨?_, rfl⟩
        by_cases hm : m2 = m
        · subst hm
          simp
        · rw [mapGet_mapSet_ne _ _ _ _ hm] at hget
          exact List.mem_cons_of_mem _ (hold.1 m2 h2 hget).1
      · intro _
        exact ⟨m, h, by simp [mapGet_mapSet_same]⟩
    | cons k ks =>
      have hd2 : descend (k :: ks) n = some n2 := by
        simpa [descend_cons] using hd
      exact Logged_mono (hn _ _ hd2) (fun e he => List.mem_cons_of_mem _ he)
  | cons part rest ih =>
    have hp : part ≠ [] := hseg part (by simp)
    have hrest : ∀ x, x ∈ rest → x ≠ [] := fun x hx => hseg x (List.mem_cons_of_mem _ hx)
    rw [addWalk_cons m h part rest n hp]
    intro ks n2 hd
    cases ks with
    | nil =>
      simp only [descend_nil, Option.some.injEq] at hd
      subst hd
      have hold := hn [] n rfl
      constructor
      · intro m2 h2 hget
        simp only [Node.handlers_mk] at hget
        have := hold.1 m2 h2 hget
        exact ⟨List.mem_cons_of_mem _ this.1, by simpa using this.2⟩
      · intro he
        simp only [Node.isEnd_mk] at he
        simpa using hold.2 he
    | cons k ks =>
      rw [descend_cons] at hd
      simp only [Node.children_mk] at hd
      by_cases hk : k = routeKey part
      · subst hk
        rw [mapGet_mapSet_same] at hd
        simp only at hd
        have hchild : LoggedBelow L (pre ++ [routeKey part])
            (match mapGet n.children (routeKey part) with
              | some c => c
              | none => (NewNode : Node H)) := by
          cases hget : mapGet n.children (routeKey part) with
          | none => exact LoggedBelow_NewNode L _
          | some c => exact LoggedBelow_child hn _ c hget
        have := ih _ (pre ++ [routeKey part]) hrest hchild ks n2 hd
        simpa using this
      · rw [mapGet_mapSet_ne _ _ _ _ hk] at hd
        have hd2 : descend (k :: ks) n = some n2 := by
          rw [descend_cons]
          exact hd
        exact Logged_mono (hn _ _ hd2) (fun e he => List.mem_cons_of_mem _ he)

/-- The history of a built router accounts for every node of its trie. -/
theorem Built_LoggedBelow (r : Router Env W) (L : List Registration) (hb : Built r L) :
    LoggedBelow L [] r.root := by
  induction hb with
  | new => exact LoggedBelow_NewNode [] []
  | addRoute r L m p h _ ih =>
    have := addWalk_LoggedBelow m (wrapWithMiddleware r h)
      (segments (Join [r.groupBasePath, p])) r.root L [] (mem_segments_ne_nil _) ih
    simpa [AddRoute_root] using this
  | use r L mw _ ih => exact ih
  | groupUse r L mw _ ih => exact ih
  | scope r L base mws _ ih => exact ih

theorem Built_foldl_AddRoute (routes : List (Route Env W)) (r : Router Env W)
    (L : List Registration) (hb : Built r L) :
    ∃ L2, Built (routes.foldl (fun acc route => AddRoute acc route.1 route.2.1 route.2.2) r) L2 := by
  induction routes generalizing r L with
  | nil => exact ⟨L, hb⟩
  | cons route rest ih => exact ih _ _ (Built.addRoute r L route.1 route.2.1 route.2.2 hb)

theorem Built_MountRoutes (r : Router Env W) (L : List Registration) (hb : Built r L)
    (basePath : Str) (routes : List (Route Env W)) :
    ∃ L2, Built (MountRoutes r basePath routes) L2 := by
  obtain ⟨L2, h2⟩ := Built_foldl_AddRoute routes _ L
    (Built.scope r L (Join [r.groupBasePath, basePath]) r.groupMiddleware hb)
  exact ⟨L2, Built.scope _ L2 r.groupBasePath r.groupMiddleware h2⟩

theorem Callback_Built (f : Router Env W → Router Env W) (hf : Callback f) :
    ∀ (r : Router Env W) (L : List Registration), Built r L → ∃ L2, Built (f r) L2 := by
  induction hf with
  | done => exact fun r L hb => ⟨L, hb⟩
  | addRoute f m p h _ ih =>
    intro r L hb
    obtain ⟨L1, h1⟩ := ih r L hb
    exact ⟨_, Built.addRoute _ L1 m p h h1⟩
  | use f mw _ ih =>
    intro r L hb
    obtain ⟨L1, h1⟩ := ih r L hb
    exact ⟨L1, Built.use _ L1 mw h1⟩
  | groupUse f mw _ ih =>
    intro r L hb
    obtain ⟨L1, h1⟩ := ih r L hb
    exact ⟨L1, Built.groupUse _ L1 mw h1⟩
  | group f g base _ _ ihf ihg =>
    intro r L hb
    obtain ⟨L1, h1⟩ := ihf r L hb
    obtain ⟨L2, h2⟩ := ihg _ L1
      (Built.scope (f r) L1 (Join [(f r).groupBasePath, base]) [] h1)
    exact ⟨L2, Built.scope _ L2 (f r).groupBasePath (f r).groupMiddleware h2⟩
  | mount f g base routes _ _ _ ihf _ =>
    intro r L hb
    obtain ⟨L1, h1⟩ := ihf r L hb
    exact Built_MountRoutes _ L1 h1 base routes

/-- Every reachable router state is built, with some history. -/
theorem Reachable_Built (r : Router Env W) (hr : Reachable r) : ∃ L, Built r L := by
  induction hr with
  | new => exact ⟨[], Built.new⟩
  | run r f _ hf ih =>
    obtain ⟨L, hb⟩ := ih
    exact Callback_Built f hf r L hb
  | enter r base _ ih =>
    obtain ⟨L, hb⟩ := ih
    exact ⟨L, Built.scope r L _ [] hb⟩

theorem findWalk_findKeys {H : Type} (segs : List Str) (n : Node H) (params : HandlerParams) :
    (findKeys segs n = none → (findWalk segs n params).1 = none) ∧
    (∀ ks, findKeys segs n = some ks →
      ∃ n2, (findWalk segs n params).1 = some n2 ∧ descend ks n = some n2) := by
  induction segs generalizing n params with
  | nil =>
    constructor
    · intro h
      simp [findKeys] at h
    · intro ks h
      simp only [findKeys, Option.some.injEq] at h
      subst h
      exact ⟨n, rfl, rfl⟩
  | cons part rest ih =>
    by_cases hp : part = []
    · simpa [findKeys, findWalk, hp] using ih n params
    · cases hlit : mapGet n.children part with
      | some c =>
        simp only [findKeys, findWalk, hp, if_false, hlit]
        obtain ⟨h1, h2⟩ := ih c params
        constructor
        · intro h
          apply h1
          cases hk : findKeys rest c with
          | none => rfl
          | some ks => simp [hk] at h
        · intro ks h
          cases hk : findKeys rest c with
          | none => simp [hk] at h
          | some ks2 =>
            simp only [hk, Option.map_some', Option.some.injEq] at h
            subst h
            obtain ⟨n2, h3, h4⟩ := h2 ks2 hk
            exact ⟨n2, h3, by simp [descend_cons, hlit, h4]⟩
      | none =>
        cases hpar : mapGet n.children paramKey with
        | some c =>
          simp only [findKeys, findWalk, hp, if_false, hlit, hpar]
          obtain ⟨h1, h2⟩ := ih c (mapSet params c.parameterName part)
          constructor
          · intro h
            apply h1
            cases hk : findKeys rest c with
            | none => rfl
            | some ks => simp [hk] at h
          · intro ks h
            cases hk : findKeys rest c with
            | none => simp [hk] at h
            | some ks2 =>
              simp only [hk, Option.map_some', Option.some.injEq] at h
              subst h
              obtain ⟨n2, h3, h4⟩ := h2 ks2 hk
              exact ⟨n2, h3, by simp [descend_cons, hpar, h4]⟩
        | none =>
          simp only [findKeys, findWalk, hp, if_false, hlit, hpar]
          constructor
          · intro _
            trivial
          · intro ks h
            exact Option.noConfusion h

theorem FindHandler_none_of_walk_none (r : Router Env W) (m p : Str)
    (hw : (findWalk (segments p) r.root []).1 = none) : (FindHandler r m p).1 = none := by
  cases hfw : findWalk (segments p) r.root [] with
  | mk found params =>
    rw [hfw] at hw
    simp only at hw
    subst hw
    simp only [segments] at hfw
    simp only [FindHandler, hfw]

theorem FindHandler_none_of_no_handler (r : Router Env W) (m p : Str)
    (n : Node (HandlerFunc Env W)) (hw : (findWalk (segments p) r.root []).1 = some n)
    (hn : n.isEnd = true → mapGet n.handlers m = none) : (FindHandler r m p).1 = none := by
  cases hfw : findWalk (segments p) r.root [] with
  | mk found params =>
    rw [hfw] at hw
    simp only at hw
    subst hw
    simp only [segments] at hfw
    simp only [FindHandler, hfw]
    cases he : n.isEnd with
    | false => simp
    | true => simp [hn he]

/-- C11: in a router built with history `L`, when no registration of method
`m2` was made at the trie position the path resolves to (in particular when no
registration used `m2` at all), `FindHandler` returns an absent handler. -/
theorem method_miss (r : Router Env W) (L : List Registration) (hb : Built r L) (m2 p : Str)
    (hnot : ∀ ks, findKeys (segments p) r.root = some ks → (m2, ks) ∉ L) :
    (FindHandler r m2 p).1 = none := by
  obtain ⟨h1, h2⟩ := findWalk_findKeys (segments p) r.root []
  cases hk : findKeys (segments p) r.root with
  | none => exact FindHandler_none_of_walk_none r m2 p (h1 hk)
  | some ks =>
    obtain ⟨n, hw, hd⟩ := h2 ks hk
    apply FindHandler_none_of_no_handler r m2 p n hw
    intro _
    cases hget : mapGet n.handlers m2 with
    | none => rfl
    | some h =>
      have hlog := Built_LoggedBelow r L hb ks n hd
      exact absurd (by simpa using (hlog.1 m2 h hget).1) (hnot ks hk)

/-- C11 (witness): `GET /test` is registered on a fresh router; the lookup of
`POST /test` returns no handler. -/
theorem method_miss_witness :
    (FindHandler (AddRoute (NewRouter : Router Unit Nat) "GET".toList "/test".toList
      idleHandler) "POST".toList "/test".toList).1 = none :=
  method_miss _ _ (Built.addRoute NewRouter [] "GET".toList "/test".toList idleHandler Built.new)
    "POST".toList "/test".toList
    (fun ks _ hmem => by
      have hm : "POST".toList = "GET".toList :=
        congrArg Prod.fst (List.mem_singleton.1 hmem)
      exact absurd hm (by decide))

/-- C19: in a router built with history `L`, every trie node with a non-empty
handlers map is marked as an end, and every node marked as an end stores a
handler for some method that was registered at its key path. -/
theorem trie_invariant (r : Router Env W) (L : List Registration) (hb : Built r L)
    (ks : List Str) (n : Node (HandlerFunc Env W)) (hd : descend ks r.root = some n) :
    (n.handlers ≠ [] → n.isEnd = true) ∧
    (n.isEnd = true → n.handlers ≠ [] ∧
      ∃ m, (m, ks) ∈ L ∧ (mapGet n.handlers m).isSome = true) := by
  have hlog : Logged L ks n := by
    simpa using Built_LoggedBelow r L hb ks n hd
  constructor
  · intro hne
    cases hh : n.handlers with
    | nil => exact absurd hh hne
    | cons kv rest =>
      obtain ⟨k, v⟩ := kv
      exact (hlog.1 k v (by simp [hh, mapGet])).2
  · intro he
    obtain ⟨m, h, hget⟩ := hlog.2 he
    refine ⟨?_, m, (hlog.1 m h hget).1, by simp [hget]⟩
    intro hnil
    rw [hnil] at hget
    simp [mapGet] at hget

/-- C19 (witness): the node of `GET /test` on a fresh router. -/
theorem trie_invariant_witness :
    ((Node.mk [] true [("GET".toList, idleHandler)] [] : Node (HandlerFunc Unit Nat)).handlers
        ≠ [] →
      (Node.mk [] true [("GET".toList, idleHandler)] [] : Node (HandlerFunc Unit Nat)).isEnd
        = true) ∧
    ((Node.mk [] true [("GET".toList, idleHandler)] [] : Node (HandlerFunc Unit Nat)).isEnd
        = true →
      (Node.mk [] true [("GET".toList, idleHandler)] [] : Node (HandlerFunc Unit Nat)).handlers
        ≠ [] ∧
      ∃ m, (m, ["test".toList]) ∈
          [("GET".toList, (segments (Join [[], "/test".toList])).map routeKey)] ∧
        (mapGet (Node.mk [] true [("GET".toList, idleHandler)] [] :
          Node (HandlerFunc Unit Nat)).handlers m).isSome = true) :=
  trie_invariant (AddRoute (NewRouter : Router Unit Nat) "GET".toList "/test".toList idleHandler)
    _ (Built.addRoute NewRouter [] "GET".toList "/test".toList idleHandler Built.new)
    ["test".toList] (Node.mk [] true [("GET".toList, idleHandler)] []) rfl

end History

/-! ## Duplicate registration -/

section Duplicate

variable {Env W : Type}

theorem mapSet_mapSet {V : Type} (l : List (Str × V)) (k : Str) (a b : V) :
    mapSet (mapSet l k a) k b = mapSet l k b := by
  induction l with
  | nil => simp [mapSet]
  | cons kv rest ih =>
    obtain ⟨k0, w⟩ := kv
    by_cases h : k0 = k
    · simp [mapSet, h]
    · simp [mapSet, h, ih]

theorem addWalk_addWalk {H : Type} (m : Str) (h1 h2 : H) (segs : List Str) (n : Node H) :
    addWalk m h2 segs (addWalk m h1 segs n) = addWalk m h2 segs n := by
  induction segs generalizing n with
  | nil => simp [addWalk_nil, mapSet_mapSet]
  | cons part rest ih =>
    by_cases hp : part = []
    · simpa [addWalk, hp] using ih n
    · rw [addWalk_cons m h1 part rest n hp, addWalk_cons m h2 part rest _ hp,
        addWalk_cons m h2 part rest n hp]
      simp only [Node.children_mk, Node.isEnd_mk, Node.handlers_mk, Node.parameterName_mk,
        mapGet_mapSet_same, mapSet_mapSet, ih]
      cases hasColon part <;> simp

theorem parameterName_addWalk {H : Type} (m : Str) (h1 h2 : H) (segs : List Str) (n : Node H)
    (hseg : ∀ x, x ∈ segs → x ≠ []) :
    (addWalk m h1 segs n).parameterName = (addWalk m h2 segs n).parameterName := by
  cases segs with
  | nil => simp [addWalk_nil]
  | cons part rest =>
    have hp : part ≠ [] := hseg part (by simp)
    rw [addWalk_cons m h1 part rest n hp, addWalk_cons m h2 part rest n hp]
    simp

theorem findWalk_cons_children {H : Type} (part : Str) (rest : List Str) (c1 c2 : Node H)
    (params : HandlerParams) (hp : part ≠ []) (hc : c1.children = c2.children) :
    findWalk (part :: rest) c1 params = findWalk (part :: rest) c2 params := by
  simp only [findWalk, hp, if_false, hc]

theorem lookupResult_findWalk (r : Router Env W) (m p : Str) :
    FindHandler r m p = lookupResult m (findWalk (segments p) r.root []) := by
  simp only [FindHandler, segments]
  generalize findWalk (sanitize (Split p)) r.root [] = res
  obtain ⟨f, ps⟩ := res
  cases f with
  | none => rfl
  | some n =>
    simp only [lookupResult]
    cases n.isEnd with
    | false => rfl
    | true =>
      cases mapGet n.handlers m with
      | none => rfl
      | some h => rfl

theorem findWalk_cons_lit {H : Type} (part : Str) (rest : List Str) (n c : Node H)
    (params : HandlerParams) (hp : part ≠ []) (hlit : mapGet n.children part = some c) :
    findWalk (part :: rest) n params = findWalk rest c params := by
  simp only [findWalk, hp, if_false, hlit]

theorem findWalk_cons_par {H : Type} (part : Str) (rest : List Str) (n c : Node H)
    (params : HandlerParams) (hp : part ≠ []) (hlit : mapGet n.children part = none)
    (hpar : mapGet n.children paramKey = some c) :
    findWalk (part :: rest) n params =
      findWalk rest c (mapSet params c.parameterName part) := by
  simp only [findWalk, hp, if_false, hlit, hpar]

theorem findWalk_cons_miss {H : Type} (part : Str) (rest : List Str) (n : Node H)
    (params : HandlerParams) (hp : part ≠ []) (hlit : mapGet n.children part = none)
    (hpar : mapGet n.children paramKey = none) :
    findWalk (part :: rest) n params = (none, params) := by
  simp only [findWalk, hp, if_false, hlit, hpar]

/-- Lookups in two tries that differ by the handler of one registration follow
the same edges and bind the same parameters. -/
theorem findWalk_SameUpTo {H : Type} (m : Str) (h1 h2 : H) (q : List Str) (c1 c2 : Node H)
    (params : HandlerParams) (hR : SameUpTo m h1 h2 c1 c2) :
    (findWalk q c1 params).2 = (findWalk q c2 params).2 ∧
    (((findWalk q c1 params).1 = none ∧ (findWalk q c2 params).1 = none) ∨
      ∃ d1 d2, (findWalk q c1 params).1 = some d1 ∧ (findWalk q c2 params).1 = some d2 ∧
        SameUpTo m h1 h2 d1 d2) := by
  have hrefl : ∀ (q : List Str) (c : Node H) (ps : HandlerParams),
      (findWalk q c ps).2 = (findWalk q c ps).2 ∧
      (((findWalk q c ps).1 = none ∧ (findWalk q c ps).1 = none) ∨
        ∃ d1 d2, (findWalk q c ps).1 = some d1 ∧ (findWalk q c ps).1 = some d2 ∧
          SameUpTo m h1 h2 d1 d2) := by
    intro q c ps
    refine ⟨rfl, ?_⟩
    cases hf : (findWalk q c ps).1 with
    | none => exact Or.inl ⟨rfl, rfl⟩
    | some d => exact Or.inr ⟨d, d, rfl, rfl, Or.inl rfl⟩
  induction q generalizing c1 c2 params with
  | nil =>
    exact ⟨rfl, Or.inr ⟨c1, c2, rfl, rfl, hR⟩⟩
  | cons part rest ih =>
    by_cases hp : part = []
    · simpa [findWalk, hp] using ih c1 c2 params hR
    · rcases hR with heq | ⟨s, n0, hs, e1, e2⟩
      · subst heq
        exact hrefl _ _ _
      · cases s with
        | nil =>
          have hc : c1.children = c2.children := by
            rw [e1, e2, addWalk_nil, addWalk_nil]
            rfl
          rw [findWalk_cons_children part rest c1 c2 params hp hc]
          exact hrefl _ _ _
        | cons sp srest =>
          have hsp : sp ≠ [] := hs sp (by simp)
          have hsr : ∀ x, x ∈ srest → x ≠ [] := fun x hx => hs x (List.mem_cons_of_mem _ hx)
          rw [addWalk_cons m h1 sp srest n0 hsp] at e1
          rw [addWalk_cons m h2 sp srest n0 hsp] at e2
          have hX : SameUpTo m h1 h2
              (addWalk m h1 srest (match mapGet n0.children (routeKey sp) with
                | some c => c
                | none => (NewNode : Node H)))
              (addWalk m h2 srest (match mapGet n0.children (routeKey sp) with
                | some c => c
                | none => (NewNode : Node H))) :=
            Or.inr ⟨srest, _, hsr, rfl, rfl⟩
          have hname := parameterName_addWalk m h1 h2 srest
            (match mapGet n0.children (routeKey sp) with
              | some c => c
              | none => (NewNode : Node H)) hsr
          subst e1 e2
          by_cases hk : part = routeKey sp
          · have g1 : ∀ (X : Node H) (e : Bool) (hs2 : List (Str × H)) (nm : Str),
                mapGet (Node.mk (mapSet n0.children (routeKey sp) X) e hs2 nm).children part =
                  some X := by
              intro X e hs2 nm
              rw [hk, Node.children_mk, mapGet_mapSet_same]
            rw [findWalk_cons_lit part rest _ _ params hp (g1 _ _ _ _),
              findWalk_cons_lit part rest _ _ params hp (g1 _ _ _ _)]
            exact ih _ _ params hX
          · have g1 : ∀ (X : Node H) (e : Bool) (hs2 : List (Str × H)) (nm : Str),
                mapGet (Node.mk (mapSet n0.children (routeKey sp) X) e hs2 nm).children part =
                  mapGet n0.children part := by
              intro X e hs2 nm
              rw [Node.children_mk, mapGet_mapSet_ne _ _ _ _ hk]
            cases hlit : mapGet n0.children part with
            | some c =>
              rw [findWalk_cons_lit part rest _ c params hp ((g1 _ _ _ _).trans hlit),
                findWalk_cons_lit part rest _ c params hp ((g1 _ _ _ _).trans hlit)]
              exact hrefl rest c params
            | none =>
              by_cases hpk : paramKey = routeKey sp
              · have q1 : ∀ (X : Node H) (e : Bool) (hs2 : List (Str × H)) (nm : Str),
                    mapGet (Node.mk (mapSet n0.children (routeKey sp) X) e hs2 nm).children
                      paramKey = some X := by
                  intro X e hs2 nm
                  rw [hpk, Node.children_mk, mapGet_mapSet_same]
                rw [findWalk_cons_par part rest _ _ params hp ((g1 _ _ _ _).trans hlit)
                    (q1 _ _ _ _),
                  findWalk_cons_par part rest _ _ params hp ((g1 _ _ _ _).trans hlit)
                    (q1 _ _ _ _), hname]
                exact ih _ _ _ hX
              · have q1 : ∀ (X : Node H) (e : Bool) (hs2 : List (Str × H)) (nm : Str),
                    mapGet (Node.mk (mapSet n0.children (routeKey sp) X) e hs2 nm).children
                      paramKey = mapGet n0.children paramKey := by
                  intro X e hs2 nm
                  rw [Node.children_mk, mapGet_mapSet_ne _ _ _ _ hpk]
                cases hpar : mapGet n0.children paramKey with
                | some c =>
                  rw [findWalk_cons_par part rest _ c params hp ((g1 _ _ _ _).trans hlit)
                      ((q1 _ _ _ _).trans hpar),
                    findWalk_cons_par part rest _ c params hp ((g1 _ _ _ _).trans hlit)
                      ((q1 _ _ _ _).trans hpar)]
                  exact hrefl rest c _
                | none =>
                  rw [findWalk_cons_miss part rest _ params hp ((g1 _ _ _ _).trans hlit)
                      ((q1 _ _ _ _).trans hpar),
                    findWalk_cons_miss part rest _ params hp ((g1 _ _ _ _).trans hlit)
                      ((q1 _ _ _ _).trans hpar)]
                  exact ⟨rfl, Or.inl ⟨rfl, rfl⟩⟩

theorem lookupResult_SameUpTo {H : Type} (m : Str) (h1 h2 : Option H)
    (d1 d2 : Node (Option H)) (params : HandlerParams) (hR : SameUpTo m h1 h2 d1 d2) :
    (∀ m2, m2 ≠ m → lookupResult m2 (some d1, params) = lookupResult m2 (some d2, params)) ∧
    (lookupResult m (some d1, params) = lookupResult m (some d2, params) ∨
      (lookupResult m (some d2, params)).1 = h2) := by
  rcases hR with heq | ⟨s, n0, hs, e1, e2⟩
  · subst heq
    exact ⟨fun _ _ => rfl, Or.inl rfl⟩
  · cases s with
    | nil =>
      rw [addWalk_nil] at e1 e2
      subst e1 e2
      constructor
      · intro m2 hm
        simp [lookupResult, mapGet_mapSet_ne _ _ _ _ hm]
      · right
        simp [lookupResult, mapGet_mapSet_same]
    | cons sp srest =>
      have hsp : sp ≠ [] := hs sp (by simp)
      rw [addWalk_cons m h1 sp srest n0 hsp] at e1
      rw [addWalk_cons m h2 sp srest n0 hsp] at e2
      subst e1 e2
      exact ⟨fun _ _ => by simp [lookupResult], Or.inl (by simp [lookupResult])⟩

theorem lookupResult_snd {H : Type} (m : Str) (found : Option (Node (Option H)))
    (params : HandlerParams) : (lookupResult m (found, params)).2 = params := by
  cases found with
  | none => rfl
  | some n =>
    simp only [lookupResult]
    split
    · split <;> rfl
    · rfl

/-- Looking up in two tries that differ by the handler of one registration:
other methods get the same result, the bindings agree, and the method of the
registration gets the same result or the second handler. -/
theorem lookup_SameUpTo {H : Type} (m : Str) (h1 h2 : Option H) (q : List Str)
    (c1 c2 : Node (Option H)) (hR : SameUpTo m h1 h2 c1 c2) :
    (∀ m2, m2 ≠ m → lookupResult m2 (findWalk q c1 []) = lookupResult m2 (findWalk q c2 [])) ∧
    (lookupResult m (findWalk q c1 [])).2 = (lookupResult m (findWalk q c2 [])).2 ∧
    (lookupResult m (findWalk q c1 []) = lookupResult m (findWalk q c2 []) ∨
      (lookupResult m (findWalk q c2 [])).1 = h2) := by
  obtain ⟨hps, hcase⟩ := findWalk_SameUpTo m h1 h2 q c1 c2 [] hR
  cases hf1 : findWalk q c1 [] with
  | mk f1 ps1 =>
    cases hf2 : findWalk q c2 [] with
    | mk f2 ps2 =>
      rw [hf1, hf2] at hps hcase
      simp only at hps hcase
      subst hps
      rcases hcase with ⟨e1, e2⟩ | ⟨d1, d2, e1, e2, hd⟩
      · subst e1 e2
        exact ⟨fun _ _ => rfl, rfl, Or.inl rfl⟩
      · subst e1 e2
        obtain ⟨g1, g2⟩ := lookupResult_SameUpTo m h1 h2 d1 d2 ps1 hd
        exact ⟨g1, by rw [lookupResult_snd, lookupResult_snd], g2⟩

/-- At top level with no middleware, on a trie with well-formed keys, the lookup
of a path without `.` and `..` parts returns the handler just registered. -/
theorem FindHandler_AddRoute_exact (r : Router Env W) (hk : KeysOK r.root) (m p : Str)
    (h : HandlerFunc Env W) (htop : r.groupBasePath = []) (hg : r.globalMiddleware = [])
    (hq : r.groupMiddleware = []) (hp : ∀ x, x ∈ segments p → plainPart x) :
    (FindHandler (AddRoute r m p h) m p).1 = h := by
  have hk2 : KeysOK (AddRoute r m p h).root := addWalk_KeysOK _ _ _ _ hk
  have hsegs : segments (Join [r.groupBasePath, p]) = segments p := by
    rw [htop]
    exact segments_Join_top p hp
  obtain ⟨n2, hd, he, hget⟩ :=
    descend_addWalk m (wrapWithMiddleware r h) (segments p) r.root (mem_segments_ne_nil p)
  rw [wrapWithMiddleware_none r h hg hq] at hd hget
  have hroot : (AddRoute r m p h).root = addWalk m h (segments p) r.root := by
    rw [AddRoute_root, hsegs, wrapWithMiddleware_none r h hg hq]
  apply FindHandler_fst_of_walk _ m p n2 h _ he hget
  apply findWalk_of_descend _ _ _ _ hk2 (mem_segments_ne_nil p)
  rw [hroot]
  exact hd

/-- C12 (counterexample): `GET /users/:id` is registered with the idle handler
and again with the incrementing handler; the lookup of the other path
`/users/42` returns the idle handler after the first registration only and the
incrementing handler after both. -/
theorem duplicate_registration_other_path :
    (FindHandler (AddRoute (NewRouter : Router Unit Nat) "GET".toList "/users/:id".toList
      idleHandler) "GET".toList "/users/42".toList).1.map (fun f => f [] () 0) = some 0 ∧
    (FindHandler (AddRoute (AddRoute (NewRouter : Router Unit Nat) "GET".toList
      "/users/:id".toList idleHandler) "GET".toList "/users/:id".toList otherHandler)
      "GET".toList "/users/42".toList).1.map (fun f => f [] () 0) = some 1 := by
  decide

end Duplicate

section MountNames

/-- C15 (code at the failing input): `B` holds `GET /users/:id/:post`;
`B.Routes()` enumerates it under the path `users/:param/:param`, so after
`A.Mount("/api", B)` the lookup of `GET /api/users/1/2` is present and binds
`param` to `1`, while after registering `GET /api/users/:id/:post` directly it
binds `post` to `1`. -/
theorem Mount_renames_parameters :
    Routes (AddRoute (NewRouter : Router Unit Nat) "GET".toList "/users/:id/:post".toList
        idleHandler) =
      [("GET".toList, "users/:param/:param".toList, idleHandler)] ∧
    (FindHandler (Mount (NewRouter : Router Unit Nat) "/api".toList
        (AddRoute NewRouter "GET".toList "/users/:id/:post".toList idleHandler))
      "GET".toList "/api/users/1/2".toList).1.isSome = true ∧
    (FindHandler (Mount (NewRouter : Router Unit Nat) "/api".toList
        (AddRoute NewRouter "GET".toList "/users/:id/:post".toList idleHandler))
      "GET".toList "/api/users/1/2".toList).2 =
      [("param".toList, "1".toList), ([], "2".toList)] ∧
    Join ["/api".toList, "/users/:id/:post".toList] = "/api/users/:id/:post".toList ∧
    (FindHandler (AddRoute (NewRouter : Router Unit Nat) "GET".toList
        (Join ["/api".toList, "/users/:id/:post".toList]) idleHandler)
      "GET".toList "/api/users/1/2".toList).2 =
      [("post".toList, "1".toList), ([], "2".toList)] :=
  ⟨rfl, by decide, by decide, by decide, by decide⟩

end MountNames

/-! ## Route enumeration -/

section Enumeration

variable {H : Type}

theorem mem_keys_mapSet {V : Type} (l : List (Str × V)) (k : Str) (v : V) (x : Str)
    (hx : x ∈ (mapSet l k v).map Prod.fst) : x = k ∨ x ∈ l.map Prod.fst := by
  obtain ⟨kv, hmem, rfl⟩ := List.mem_map.1 hx
  rcases mem_mapSet l k v kv hmem with h | h
  · exact Or.inl (by rw [h])
  · exact Or.inr (List.mem_map.2 ⟨kv, h, rfl⟩)

theorem nodup_keys_mapSet {V : Type} (l : List (Str × V)) (k : Str) (v : V)
    (h : (l.map Prod.fst).Nodup) : ((mapSet l k v).map Prod.fst).Nodup := by
  induction l with
  | nil => simp [mapSet]
  | cons kv rest ih =>
    obtain ⟨k0, w⟩ := kv
    simp only [List.map_cons, List.nodup_cons] at h
    by_cases hk : k0 = k
    · simp only [mapSet, hk, if_true, List.map_cons, List.nodup_cons]
      rw [hk] at h
      exact h
    · simp only [mapSet, hk, if_false, List.map_cons, List.nodup_cons]
      refine ⟨?_, ih h.2⟩
      intro hmem
      rcases mem_keys_mapSet rest k v k0 hmem with h1 | h1
      · exact hk h1
      · exact h.1 h1

theorem mapGet_of_mem_nodup {V : Type} (l : List (Str × V)) (k : Str) (v : V)
    (h : (l.map Prod.fst).Nodup) (hmem : (k, v) ∈ l) : mapGet l k = some v := by
  induction l with
  | nil => simp at hmem
  | cons kv rest ih =>
    obtain ⟨k0, w⟩ := kv
    simp only [List.map_cons, List.nodup_cons] at h
    rcases List.mem_cons.1 hmem with heq | hin
    · simp only [Prod.mk.injEq] at heq
      simp [mapGet, heq.1, heq.2]
    · have hne : k0 ≠ k := by
        intro hk
        apply h.1
        rw [hk]
        exact List.mem_map.2 ⟨(k, v), hin, rfl⟩
      simp only [mapGet, hne, if_false]
      exact ih h.2 hin

theorem PlainKey_paramKey : PlainKey paramKey := by
  refine ⟨by decide, by decide, by decide, by decide⟩

theorem PlainKey_routeKey (part : Str) (h1 : part ≠ []) (h2 : '/' ∉ part)
    (h3 : plainPart part) : PlainKey (routeKey part) := by
  cases hc : hasColon part with
  | true =>
    have : routeKey part = paramKey := by simp [routeKey, hc]
    rw [this]
    exact PlainKey_paramKey
  | false =>
    have hk : routeKey part = part := routeKey_of_not_colon part hc
    rw [hk]
    exact ⟨h1, h2, h3, hk⟩

theorem PlainTrie_NewNode : PlainTrie (NewNode : Node H) :=
  PlainTrie.mk [] false [] [] (by simp) (by simp) (by simp) (by simp)

theorem PlainTrie_child {n : Node H} (hn : PlainTrie n) (k : Str) (c : Node H)
    (hget : mapGet n.children k = some c) : PlainTrie c := by
  cases hn with
  | mk ch e h p h1 h2 h3 h4 =>
    obtain ⟨k0, hmem, _⟩ := mem_of_mapGet ch k c hget
    exact h4 (k0, c) hmem

theorem addWalk_PlainTrie (m : Str) (h : H) (segs : List Str) (n : Node H)
    (hseg : ∀ x, x ∈ segs → x ≠ [] ∧ '/' ∉ x ∧ plainPart x) (hn : PlainTrie n) :
    PlainTrie (addWalk m h segs n) := by
  induction segs generalizing n with
  | nil =>
    rw [addWalk_nil]
    cases hn with
    | mk ch e hs p h1 h2 h3 h4 =>
      exact PlainTrie.mk ch true _ p h1 (nodup_keys_mapSet hs m h h2) h3 h4
  | cons part rest ih =>
    obtain ⟨hp1, hp2, hp3⟩ := hseg part (by simp)
    rw [addWalk_cons m h part rest n hp1]
    have hchild : PlainTrie (match mapGet n.children (routeKey part) with
        | some c => c
        | none => (NewNode : Node H)) := by
      cases hget : mapGet n.children (routeKey part) with
      | none => exact PlainTrie_NewNode
      | some c => exact PlainTrie_child hn _ c hget
    have hnew := ih _ (fun x hx => hseg x (List.mem_cons_of_mem _ hx)) hchild
    cases hn with
    | mk ch e hs p h1 h2 h3 h4 =>
      refine PlainTrie.mk _ _ _ _ (nodup_keys_mapSet ch _ _ h1) h2 ?_ ?_
      · intro kc hmem
        rcases mem_mapSet _ _ _ _ hmem with h5 | h5
        · rw [h5]
          exact PlainKey_routeKey part hp1 hp2 hp3
        · exact h3 kc h5
      · intro kc hmem
        rcases mem_mapSet _ _ _ _ hmem with h5 | h5
        · rw [h5]
          exact hnew
        · exact h4 kc h5

theorem plainPart_of_routeKey (part : Str) (h : plainPart (routeKey part)) : plainPart part := by
  cases hc : hasColon part with
  | true =>
    constructor
    · intro h1
      rw [h1] at hc
      exact absurd hc (by decide)
    · intro h1
      rw [h1] at hc
      exact absurd hc (by decide)
  | false =>
    rw [routeKey_of_not_colon part hc] at h
    exact h

theorem mem_collectChildren (cs : List (Str × Node H)) (basePath : Str) (route : Str × Str × H)
    (hmem : route ∈ collectChildren cs basePath) :
    ∃ kc, kc ∈ cs ∧ route ∈ collectRoutes kc.2 (Join [basePath, kc.1]) := by
  induction cs with
  | nil => simp [collectChildren] at hmem
  | cons kc rest ih =>
    obtain ⟨k, c⟩ := kc
    simp only [collectChildren, List.mem_append] at hmem
    rcases hmem with h | h
    · exact ⟨(k, c), by simp, h⟩
    · obtain ⟨kc2, h1, h2⟩ := ih h
      exact ⟨kc2, List.mem_cons_of_mem _ h1, h2⟩

/-- Every route enumerated from a plain trie sits at the end of a key path of
plain keys, is stored at an end node for its method, and carries the path
`collectRoutes` joins from those keys. -/
theorem mem_collectRoutes (n : Node H) (hn : PlainTrie n) (basePath : Str)
    (route : Str × Str × H) (hmem : route ∈ collectRoutes n basePath) :
    ∃ ks n2, descend ks n = some n2 ∧ n2.isEnd = true ∧
      mapGet n2.handlers route.1 = some route.2.2 ∧ route.2.1 = joinKeys basePath ks ∧
      ∀ k, k ∈ ks → PlainKey k := by
  induction hn generalizing basePath with
  | mk ch e hs p h1 h2 h3 h4 ih =>
    simp only [collectRoutes, List.mem_append] at hmem
    rcases hmem with hhere | hbelow
    · cases e with
      | false => simp at hhere
      | true =>
        simp only [if_true, List.mem_map] at hhere
        obtain ⟨mh, hin, heq⟩ := hhere
        refine ⟨[], _, rfl, rfl, ?_, ?_, by simp⟩
        · rw [← heq]
          exact mapGet_of_mem_nodup hs mh.1 mh.2 h2 hin
        · rw [← heq]
          rfl
    · obtain ⟨kc, hin, hr⟩ := mem_collectChildren ch basePath route hbelow
      obtain ⟨ks, n2, g1, g2, g3, g4, g5⟩ := ih kc hin (Join [basePath, kc.1]) hr
      refine ⟨kc.1 :: ks, n2, ?_, g2, g3, ?_, ?_⟩
      · rw [descend_cons]
        simp only [Node.children_mk]
        rw [mapGet_of_mem_nodup ch kc.1 kc.2 h1 hin]
        exact g1
      · rw [g4]
        rfl
      · intro k hk
        rcases List.mem_cons.1 hk with h5 | h5
        · rw [h5]
          exact h3 kc hin
        · exact g5 k h5

end Enumeration

section BuiltPlain

variable {Env W : Type}

/-- A router built by registrations at key paths without `.` and `..` has a
plain trie. -/
theorem Built_PlainTrie (r : Router Env W) (L : List Registration) (hb : Built r L)
    (hplain : ∀ e, e ∈ L → ∀ k, k ∈ e.2 → plainPart k) : PlainTrie r.root := by
  induction hb with
  | new => exact PlainTrie_NewNode
  | addRoute r L m p h _ ih =>
    have hL : ∀ e, e ∈ L → ∀ k, k ∈ e.2 → plainPart k :=
      fun e he => hplain e (List.mem_cons_of_mem _ he)
    have hkeys := hplain _ (List.mem_cons_self _ _)
    rw [AddRoute_root]
    apply addWalk_PlainTrie _ _ _ _ _ (ih hL)
    intro x hx
    obtain ⟨g1, g2⟩ := mem_segments _ x hx
    refine ⟨g1, g2, ?_⟩
    apply plainPart_of_routeKey
    apply hkeys
    exact List.mem_map.2 ⟨x, hx, rfl⟩
  | use r L mw _ ih => exact ih hplain
  | groupUse r L mw _ ih => exact ih hplain
  | scope r L base mws _ ih => exact ih hplain

end BuiltPlain

section MountedPaths

theorem PlainKey_segments {k : Str} (hk : PlainKey k) : segments k = [k] :=
  segments_of_noSlash k hk.1 hk.2.1

theorem segments_joinKeys (basePath : Str) (ks : List Str)
    (hbase : ∀ x, x ∈ segments basePath → plainPart x) (hks : ∀ k, k ∈ ks → PlainKey k) :
    segments (joinKeys basePath ks) = segments basePath ++ ks := by
  induction ks generalizing basePath with
  | nil => simp [joinKeys]
  | cons k ks ih =>
    have hk : PlainKey k := hks k (by simp)
    have hkseg : ∀ x, x ∈ segments k → plainPart x := by
      intro x hx
      rw [(PlainKey_segments hk)] at hx
      rw [List.mem_singleton.1 hx]
      exact hk.2.2.1
    have hstep : segments (Join [basePath, k]) = segments basePath ++ [k] := by
      rw [segments_Join_pair_plain basePath k hbase hkseg, (PlainKey_segments hk)]
    have hplain : ∀ x, x ∈ segments (Join [basePath, k]) → plainPart x := by
      intro x hx
      rw [hstep] at hx
      rcases List.mem_append.1 hx with h | h
      · exact hbase x h
      · rw [List.mem_singleton.1 h]
        exact hk.2.2.1
    have := ih (Join [basePath, k]) hplain (fun x hx => hks x (List.mem_cons_of_mem _ hx))
    simp only [joinKeys, List.foldl_cons] at this ⊢
    rw [this, hstep]
    simp

theorem segments_joinKeys_nil (ks : List Str) (hks : ∀ k, k ∈ ks → PlainKey k) :
    segments (joinKeys [] ks) = ks := by
  rw [segments_joinKeys [] ks (by simp [segments_nil]) hks, segments_nil]
  rfl

theorem cleanSegs_append_plain (r : Bool) (gs ks : List Str)
    (hks : ∀ x, x ∈ ks → plainPart x) : cleanSegs r (gs ++ ks) = cleanSegs r gs ++ ks := by
  simp only [cleanSegs, List.foldl_append]
  rw [foldl_cleanStep_plain r ks _ hks]
  simp

theorem map_routeKey_plain (ks : List Str) (hks : ∀ k, k ∈ ks → PlainKey k) :
    ks.map routeKey = ks := by
  induction ks with
  | nil => rfl
  | cons k ks ih =>
    simp only [List.map_cons, (hks k (by simp)).2.2.2]
    rw [ih (fun x hx => hks x (List.mem_cons_of_mem _ hx))]

/-- The parts of a mounted route with at least one key: the parts the base path
contributes, followed by the keys. -/
theorem segments_mounted_cons (G : Str) (ks : List Str) (hks : ∀ k, k ∈ ks → PlainKey k)
    (hne : ks ≠ []) : segments (Join [G, joinKeys [] ks]) = mountParts G ++ ks := by
  have hq : segments (joinKeys [] ks) = ks := segments_joinKeys_nil ks hks
  have hplain : ∀ x, x ∈ ks → plainPart x := fun x hx => (hks x hx).2.2.1
  have hqne : joinKeys [] ks ≠ [] := by
    intro h
    rw [h, segments_nil] at hq
    exact hne hq.symm
  rw [segments_Join]
  have hc : concatAll [G, joinKeys [] ks] ≠ [] := by simp [concatAll, hqne]
  simp only [hc, if_false, segmentsAll, hq, List.append_nil]
  by_cases hG : G = []
  · subst hG
    simp only [mountParts, if_true, List.nil_append, segments_nil, concatAll]
    exact cleanOut_plain _ _ hplain (fun _ => hne)
  · have hr : isRooted (concatAll [G, joinKeys [] ks]) = isRooted G := by
      simp only [concatAll]
      exact isRooted_append _ _ hG
    rw [hr]
    simp only [mountParts, hG, if_false, cleanOut, cleanSegs_append_plain _ _ _ hplain]
    have : cleanSegs (isRooted G) (segments G) ++ ks ≠ [] := by simp [hne]
    simp [this]

/-- The parts of a mounted route without keys: the parts the base path
contributes, or the single part `.` when it contributes none. -/
theorem segments_mounted_nil (G : Str) :
    segments (Join [G, joinKeys [] []]) = mountParts G ∨
      (segments (Join [G, joinKeys [] []]) = [['.']] ∧ mountParts G = []) := by
  have hj : joinKeys [] [] = ([] : Str) := rfl
  rw [hj, segments_Join]
  by_cases hG : G = []
  · subst hG
    left
    simp [concatAll, mountParts]
  · have hc : concatAll [G, []] ≠ [] := by simp [concatAll, hG]
    have hr : isRooted (concatAll [G, []]) = isRooted G := by simp [concatAll]
    simp only [hc, if_false, hr, segmentsAll, segments_nil, List.append_nil, mountParts, hG,
      cleanOut]
    by_cases hs : isRooted G = false ∧ cleanSegs (isRooted G) (segments G) = []
    · right
      obtain ⟨hr0, hx0⟩ := hs
      rw [hr0] at hx0 ⊢
      simp [hx0]
    · left
      simp only [hs, if_false]

theorem not_PlainKey_dot : ¬ PlainKey ['.'] := fun h => h.2.2.1.1 rfl

/-- Two plain key paths that are mounted at the same trie position are equal. -/
theorem mounted_keys_injective (G : Str) (ks1 ks2 : List Str)
    (h1 : ∀ k, k ∈ ks1 → PlainKey k) (h2 : ∀ k, k ∈ ks2 → PlainKey k)
    (heq : (segments (Join [G, joinKeys [] ks1])).map routeKey =
      (segments (Join [G, joinKeys [] ks2])).map routeKey) : ks1 = ks2 := by
  have key : ∀ (ka kb : List Str), (∀ k, k ∈ kb → PlainKey k) → kb ≠ [] →
      (segments (Join [G, joinKeys [] []])).map routeKey =
        (mountParts G ++ kb).map routeKey → False := by
    intro ka kb hb hne hmap
    rcases segments_mounted_nil G with h0 | ⟨h0, hX⟩
    · rw [h0] at hmap
      have hlen := congrArg List.length hmap
      simp only [List.length_map, List.length_append] at hlen
      have : kb.length = 0 := by omega
      exact hne (List.length_eq_zero.1 this)
    · rw [h0, hX, List.nil_append, map_routeKey_plain kb hb] at hmap
      have hdot : routeKey ['.'] = ['.'] := by decide
      simp only [List.map_cons, List.map_nil, hdot] at hmap
      apply not_PlainKey_dot
      apply hb
      rw [← hmap]
      simp
  by_cases e1 : ks1 = []
  · by_cases e2 : ks2 = []
    · rw [e1, e2]
    · exfalso
      subst e1
      rw [segments_mounted_cons G ks2 h2 e2] at heq
      exact key [] ks2 h2 e2 heq
  · by_cases e2 : ks2 = []
    · exfalso
      subst e2
      rw [segments_mounted_cons G ks1 h1 e1] at heq
      exact key [] ks1 h1 e1 heq.symm
    · rw [segments_mounted_cons G ks1 h1 e1, segments_mounted_cons G ks2 h2 e2,
        List.map_append, List.map_append, map_routeKey_plain ks1 h1,
        map_routeKey_plain ks2 h2] at heq
      exact List.append_cancel_left heq

end MountedPaths

/-! ## Mounting -/

section Mounting

variable {Env W : Type}

/-- A walk of `AddRoute` keeps a served key path served, when its own handler
has the property in case it ends at that key path for that method. -/
theorem descend_addWalk_serves_at {H : Type} (P : H → Prop) (m : Str) (ks : List Str)
    (n n1 : Node H) (hd : descend ks n = some n1) (hs : Serves P m n1)
    (m2 : Str) (h2 : H) (segs : List Str) (hseg : ∀ x, x ∈ segs → x ≠ [])
    (hP : m = m2 → ks = segs.map routeKey → P h2) :
    ∃ n2, descend ks (addWalk m2 h2 segs n) = some n2 ∧ Serves P m n2 := by
  induction segs generalizing n ks n1 with
  | nil =>
    rw [addWalk_nil]
    cases ks with
    | nil =>
      simp only [descend_nil, Option.some.injEq] at hd
      subst hd
      refine ⟨_, rfl, ?_, ?_⟩
      · simp
      · by_cases hm : m = m2
        · subst hm
          exact ⟨h2, by simp [mapGet_mapSet_same], hP rfl rfl⟩
        · obtain ⟨h0, hget, hP0⟩ := hs.2
          exact ⟨h0, by simp [mapGet_mapSet_ne _ _ _ _ hm, hget], hP0⟩
    | cons k ks =>
      refine ⟨n1, ?_, hs⟩
      simpa [descend_cons] using hd
  | cons part rest ih =>
    have hp : part ≠ [] := hseg part (by simp)
    have hrest : ∀ x, x ∈ rest → x ≠ [] := fun x hx => hseg x (List.mem_cons_of_mem _ hx)
    rw [addWalk_cons m2 h2 part rest n hp]
    cases ks with
    | nil =>
      simp only [descend_nil, Option.some.injEq] at hd
      subst hd
      refine ⟨_, rfl, ?_, ?_⟩
      · simpa using hs.1
      · simpa using hs.2
    | cons k ks =>
      rw [descend_cons] at hd
      by_cases hk : k = routeKey part
      · subst hk
        cases hget : mapGet n.children (routeKey part) with
        | none => simp [hget] at hd
        | some c =>
          simp only [hget] at hd
          obtain ⟨n2, h3, h4⟩ := ih ks c n1 hd hs hrest
            (fun hm hks => hP hm (by rw [hks]; rfl))
          refine ⟨n2, ?_, h4⟩
          simp only [descend_cons, Node.children_mk, mapGet_mapSet_same]
          exact h3
      · refine ⟨n1, ?_, hs⟩
        simp only [descend_cons, Node.children_mk, mapGet_mapSet_ne _ _ _ _ hk]
        exact hd

theorem mountWalks_keeps {H : Type} (G : Str) (w : H → H) (P : H → Prop) (m : Str)
    (ks : List Str) (routes : List (Str × Str × H)) (root n1 : Node H)
    (hd : descend ks root = some n1) (hs : Serves P m n1)
    (hcond : ∀ x, x ∈ routes → m = x.1 →
      ks = (segments (Join [G, x.2.1])).map routeKey → P (w x.2.2)) :
    ∃ n2, descend ks (mountWalks G w routes root) = some n2 ∧ Serves P m n2 := by
  induction routes generalizing root n1 with
  | nil => exact ⟨n1, hd, hs⟩
  | cons x rest ih =>
    obtain ⟨n2, h1, h2⟩ := descend_addWalk_serves_at P m ks root n1 hd hs x.1 (w x.2.2)
      (segments (Join [G, x.2.1])) (mem_segments_ne_nil _) (hcond x (by simp))
    exact ih _ n2 h1 h2 (fun y hy => hcond y (List.mem_cons_of_mem _ hy))

/-- After the loop of `Mount`, the key path of an enumerated route leads to an
end node storing the wrapped handler of that route, provided the routes that
land on the same position for the same method carry the same handler. -/
theorem mountWalks_stored {H : Type} (G : Str) (w : H → H) (routes : List (Str × Str × H))
    (root : Node H) (route : Str × Str × H) (hmem : route ∈ routes)
    (hfun : ∀ x, x ∈ routes → x.1 = route.1 →
      (segments (Join [G, x.2.1])).map routeKey =
        (segments (Join [G, route.2.1])).map routeKey → x.2.2 = route.2.2) :
    ∃ n2, descend ((segments (Join [G, route.2.1])).map routeKey)
        (mountWalks G w routes root) = some n2 ∧
      Serves (fun h => h = w route.2.2) route.1 n2 := by
  induction routes generalizing root with
  | nil => simp at hmem
  | cons x rest ih =>
    have hrest : ∀ y, y ∈ rest → y.1 = route.1 →
        (segments (Join [G, y.2.1])).map routeKey =
          (segments (Join [G, route.2.1])).map routeKey → y.2.2 = route.2.2 :=
      fun y hy => hfun y (List.mem_cons_of_mem _ hy)
    by_cases hin : route ∈ rest
    · exact ih _ hin hrest
    · have hx : route = x := by
        rcases List.mem_cons.1 hmem with h | h
        · exact h
        · exact absurd h hin
      subst hx
      obtain ⟨n1, hd, he, hget⟩ := descend_addWalk route.1 (w route.2.2)
        (segments (Join [G, route.2.1])) root (mem_segments_ne_nil _)
      exact mountWalks_keeps G w (fun h => h = w route.2.2) route.1 _ rest _ n1 hd
        ⟨he, _, hget, rfl⟩
        (fun y hy hm hks => by rw [hrest y hy hm.symm hks.symm])

theorem foldl_AddRoute_root (routes : List (Route Env W)) (r : Router Env W) :
    (routes.foldl (fun acc route => AddRoute acc route.1 route.2.1 route.2.2) r).root =
      mountWalks r.groupBasePath (wrapWithMiddleware r) routes r.root := by
  induction routes generalizing r with
  | nil => rfl
  | cons x rest ih =>
    simp only [List.foldl_cons, mountWalks]
    rw [ih]
    rfl

theorem MountRoutes_root (A : Router Env W) (basePath : Str) (routes : List (Route Env W)) :
    (MountRoutes A basePath routes).root =
      mountWalks (Join [A.groupBasePath, basePath])
        (composeRight (A.globalMiddleware ++ A.groupMiddleware)) routes A.root := by
  have hw : wrapWithMiddleware
      { A with groupBasePath := Join [A.groupBasePath, basePath] } =
      composeRight (A.globalMiddleware ++ A.groupMiddleware) := by
    funext h
    exact wrapWithMiddleware_eq_composeRight _ h
  have := foldl_AddRoute_root routes { A with groupBasePath := Join [A.groupBasePath, basePath] }
  rw [hw] at this
  exact this

/-- Two routes enumerated from a plain trie that are mounted at the same
position for the same method carry the same handler. -/
theorem mounted_routes_functional {H : Type} (n : Node H) (hn : PlainTrie n) (G : Str)
    (x route : Str × Str × H) (hx : x ∈ collectRoutes n []) (hr : route ∈ collectRoutes n [])
    (hm : x.1 = route.1)
    (hk : (segments (Join [G, x.2.1])).map routeKey =
      (segments (Join [G, route.2.1])).map routeKey) : x.2.2 = route.2.2 := by
  obtain ⟨ks1, n1, a1, _, a3, a4, a5⟩ := mem_collectRoutes n hn [] x hx
  obtain ⟨ks2, n2, b1, _, b3, b4, b5⟩ := mem_collectRoutes n hn [] route hr
  rw [a4, b4] at hk
  have hks : ks1 = ks2 := mounted_keys_injective G ks1 ks2 a5 b5 hk
  subst hks
  rw [a1] at b1
  have hn12 : n1 = n2 := Option.some.inj b1
  subst hn12
  rw [hm, b3] at a3
  exact (Option.some.inj a3).symm

/-- C16: `B` is built by registrations at key paths without `.` and `..` parts
(as from clean absolute paths) and `A` is reachable.  After the mount, in
whatever order the routes of `B` are enumerated, the trie of `A` is the trie
before extended by one walk per route storing the composition of `A` (global
then group middleware) applied to the handler `B` stored, and the lookup of a
mounted route returns exactly that handler; composing around a handler that is
itself the composition of `B` around the raw handler gives the composition of
`A` followed by that of `B`, so that tag-recording middleware record the tags of
`A`, then those of `B`, then the handler. -/
theorem mount_accumulates {T : Type} (A : Router Env W) (hA : Reachable A) (B : Router Env W)
    (L : List Registration) (hB : Built B L)
    (hplain : ∀ e, e ∈ L → ∀ k, k ∈ e.2 → plainPart k) (basePath : Str)
    (routes : List (Route Env W)) (hperm : routes.Perm (Routes B))
    (route : Route Env W) (hmem : route ∈ Routes B)
    (B0 : Router Env W) (raw : HandlerFunc Env W)
    (rootA rootB : Node (HandlerFunc Env (List T))) (as bs : List T) (t : T)
    (params : HandlerParams) (env : Env) (w : List T) :
    (MountRoutes A basePath routes).root =
      mountWalks (Join [A.groupBasePath, basePath])
        (composeRight (A.globalMiddleware ++ A.groupMiddleware)) routes A.root ∧
    (FindHandler (MountRoutes A basePath routes) route.1
        (Join [A.groupBasePath, basePath, route.2.1])).1 =
      composeRight (A.globalMiddleware ++ A.groupMiddleware) route.2.2 ∧
    wrapWithMiddleware A (wrapWithMiddleware B0 raw) =
      composeRight ((A.globalMiddleware ++ A.groupMiddleware) ++
        (B0.globalMiddleware ++ B0.groupMiddleware)) raw ∧
    (wrapWithMiddleware
        { root := rootA, groupBasePath := [], globalMiddleware := as.map traceMiddleware,
          groupMiddleware := [] }
        (wrapWithMiddleware
          { root := rootB, groupBasePath := [], globalMiddleware := bs.map traceMiddleware,
            groupMiddleware := [] }
          (some (traceHandler t)))).map (fun f => f params env w) =
      some (w ++ as ++ bs ++ [t]) := by
  have hroot := MountRoutes_root A basePath routes
  refine ⟨hroot, ?_, ?_, ?_⟩
  · have hPT : PlainTrie B.root := Built_PlainTrie B L hB hplain
    have hmem2 : route ∈ routes := hperm.mem_iff.2 hmem
    have hfun : ∀ x, x ∈ routes → x.1 = route.1 →
        (segments (Join [Join [A.groupBasePath, basePath], x.2.1])).map routeKey =
          (segments (Join [Join [A.groupBasePath, basePath], route.2.1])).map routeKey →
        x.2.2 = route.2.2 :=
      fun x hx hm hk =>
        mounted_routes_functional B.root hPT _ x route (hperm.mem_iff.1 hx) hmem hm hk
    obtain ⟨n2, hd, he, h, hget, hh⟩ := mountWalks_stored (Join [A.groupBasePath, basePath])
      (composeRight (A.globalMiddleware ++ A.groupMiddleware)) routes A.root route hmem2 hfun
    have hk : KeysOK (MountRoutes A basePath routes).root :=
      foldl_AddRoute_KeysOK routes
        { A with groupBasePath := Join [A.groupBasePath, basePath] } (Reachable_KeysOK A hA)
    rw [← hh]
    apply FindHandler_fst_of_walk _ _ _ n2 h _ he hget
    apply findWalk_of_descend _ _ _ _ hk (mem_segments_ne_nil _)
    rw [← segments_Join_assoc, hroot]
    exact hd
  · simp only [wrapWithMiddleware_eq_composeRight, composeRight_append]
  · rw [wrapWithMiddleware_eq_composeRight, wrapWithMiddleware_eq_composeRight,
      ← composeRight_append]
    simp only [List.append_nil]
    rw [← List.map_append, composeRight_trace]
    simp

/-- C16 (witness): `B` holds `GET /ping`; `A` has the blocking middleware as
global middleware; after `A.Mount("/api", B)` the lookup of `GET /api/ping`
returns the blocking middleware composed around the handler of `B`. -/
theorem mount_accumulates_witness :
    (FindHandler (Mount (Use (NewRouter : Router Unit Nat) blockMiddleware) "/api".toList
        (AddRoute NewRouter "GET".toList "/ping".toList otherHandler))
      "GET".toList "/api/ping".toList).1 = composeRight [blockMiddleware] otherHandler :=
  (mount_accumulates (Use (NewRouter : Router Unit Nat) blockMiddleware)
    (Reachable.run _ _ Reachable.new (Callback.use _ blockMiddleware Callback.done))
    (AddRoute NewRouter "GET".toList "/ping".toList otherHandler) _
    (Built.addRoute NewRouter [] "GET".toList "/ping".toList otherHandler Built.new)
    (by decide) "/api".toList
    (Routes (AddRoute NewRouter "GET".toList "/ping".toList otherHandler)) (List.Perm.refl _)
    ("GET".toList, "ping".toList, otherHandler) (List.mem_singleton.2 rfl)
    NewRouter none NewNode NewNode ([] : List Nat) [] 0 [] () []).2.1

end Mounting

/-! ## Monotonicity of lookups -/

section Monotone

variable {Env W : Type}

theorem findKeys_cons_lit {H : Type} (part : Str) (rest : List Str) (n c : Node H)
    (hp : part ≠ []) (hlit : mapGet n.children part = some c) :
    findKeys (part :: rest) n = (findKeys rest c).map (fun ks => part :: ks) := by
  simp only [findKeys, hp, if_false, hlit]

theorem findKeys_cons_par {H : Type} (part : Str) (rest : List Str) (n c : Node H)
    (hp : part ≠ []) (hlit : mapGet n.children part = none)
    (hpar : mapGet n.children paramKey = some c) :
    findKeys (part :: rest) n = (findKeys rest c).map (fun ks => paramKey :: ks) := by
  simp only [findKeys, hp, if_false, hlit, hpar]

theorem findKeys_cons_miss {H : Type} (part : Str) (rest : List Str) (n : Node H)
    (hp : part ≠ []) (hlit : mapGet n.children part = none)
    (hpar : mapGet n.children paramKey = none) : findKeys (part :: rest) n = none := by
  simp only [findKeys, hp, if_false, hlit, hpar]

theorem findKeys_cons_children {H : Type} (part : Str) (rest : List Str) (c1 c2 : Node H)
    (hp : part ≠ []) (hc : c1.children = c2.children) :
    findKeys (part :: rest) c1 = findKeys (part :: rest) c2 := by
  simp only [findKeys, hp, if_false, hc]

theorem addWalk_cons_some {H : Type} (m : Str) (h : H) (part : Str) (rest : List Str)
    (n c : Node H) (hp : part ≠ []) (hget : mapGet n.children (routeKey part) = some c) :
    addWalk m h (part :: rest) n =
      Node.mk (mapSet n.children (routeKey part) (addWalk m h rest c)) n.isEnd n.handlers
        (if hasColon part then part.tail else n.parameterName) := by
  rw [addWalk_cons m h part rest n hp, hget]

theorem map_cons_eq_some {ks : List Str} {k : Str} {o : Option (List Str)}
    (h : o.map (fun l => k :: l) = some ks) : ∃ l, o = some l ∧ ks = k :: l := by
  cases o with
  | none => exact Option.noConfusion h
  | some l => exact ⟨l, rfl, (Option.some.inj h).symm⟩

/-- A present lookup resolves to a key path whose node serves the method. -/
theorem FindHandler_present_serves (r : Router Env W) (m p : Str)
    (hpres : (FindHandler r m p).1.isSome = true) :
    ∃ ks n, findKeys (segments p) r.root = some ks ∧
      (findWalk (segments p) r.root []).1 = some n ∧ descend ks r.root = some n ∧
      Serves (fun h : HandlerFunc Env W => h.isSome = true) m n := by
  obtain ⟨h1, h2⟩ := findWalk_findKeys (segments p) r.root []
  cases hk : findKeys (segments p) r.root with
  | none =>
    rw [FindHandler_none_of_walk_none r m p (h1 hk)] at hpres
    exact Bool.noConfusion hpres
  | some ks =>
    obtain ⟨n, hw, hd⟩ := h2 ks hk
    cases hg : mapGet n.handlers m with
    | none =>
      rw [FindHandler_none_of_no_handler r m p n hw (fun _ => hg)] at hpres
      exact Bool.noConfusion hpres
    | some h =>
      cases he : n.isEnd with
      | false =>
        rw [FindHandler_none_of_no_handler r m p n hw
          (fun h3 => by rw [he] at h3; exact Bool.noConfusion h3)] at hpres
        exact Bool.noConfusion hpres
      | true =>
        rw [FindHandler_fst_of_walk r m p n h hw he hg] at hpres
        exact ⟨ks, n, rfl, hw, hd, he, h, hg, hpres⟩

/-- After a walk of `AddRoute`, a lookup that resolved before resolves to the
same key path, unless the walk created a literal edge that shadows a parameter
edge the lookup followed. -/
theorem findKeys_addWalk_or_shadowed {H : Type} (m2 : Str) (h2 : H) (segs s : List Str)
    (n : Node H) (ks : List Str) (hseg : ∀ x, x ∈ segs → x ≠ []) (hs : ∀ x, x ∈ s → x ≠ [])
    (hk : findKeys segs n = some ks) :
    findKeys segs (addWalk m2 h2 s n) = some ks ∨ Shadowed n (addWalk m2 h2 s n) segs := by
  induction segs generalizing n s ks with
  | nil =>
    left
    simpa [findKeys] using hk
  | cons part rest ih =>
    have hp : part ≠ [] := hseg part (by simp)
    have hrest : ∀ x, x ∈ rest → x ≠ [] := fun x hx => hseg x (List.mem_cons_of_mem _ hx)
    cases s with
    | nil =>
      left
      rw [findKeys_cons_children part rest (addWalk m2 h2 [] n) n hp
        (by rw [addWalk_nil]; rfl)]
      exact hk
    | cons sp srest =>
      have hsp : sp ≠ [] := hs sp (by simp)
      have hsr : ∀ x, x ∈ srest → x ≠ [] := fun x hx => hs x (List.mem_cons_of_mem _ hx)
      have hnew : ∀ x, x ≠ routeKey sp →
          mapGet (addWalk m2 h2 (sp :: srest) n).children x = mapGet n.children x := by
        intro x hx
        rw [addWalk_cons m2 h2 sp srest n hsp, Node.children_mk, mapGet_mapSet_ne _ _ _ _ hx]
      have hhit : ∀ c, mapGet n.children (routeKey sp) = some c →
          mapGet (addWalk m2 h2 (sp :: srest) n).children (routeKey sp) =
            some (addWalk m2 h2 srest c) := by
        intro c hc
        rw [addWalk_cons_some m2 h2 sp srest n c hsp hc, Node.children_mk, mapGet_mapSet_same]
      cases hlit : mapGet n.children part with
      | some c =>
        rw [findKeys_cons_lit part rest n c hp hlit] at hk
        obtain ⟨l, hl, hks⟩ := map_cons_eq_some hk
        subst hks
        by_cases hkey : part = routeKey sp
        · have hc : mapGet n.children (routeKey sp) = some c := by rw [← hkey]; exact hlit
          have hX := hhit c hc
          rw [← hkey] at hX
          rcases ih srest c l hrest hsr hl with g | g
          · left
            rw [findKeys_cons_lit part rest _ _ hp hX, g]
            rfl
          · right
            obtain ⟨pre, pt, rs, ksp, c0, c1, e, hpt, fk, d0, d1, l0, l1⟩ := g
            refine ⟨part :: pre, pt, rs, part :: ksp, c0, c1, by rw [e]; rfl, hpt, ?_, ?_, ?_,
              l0, l1⟩
            · rw [findKeys_cons_lit part pre n c hp hlit, fk]
              rfl
            · rw [descend_cons, hlit]
              exact d0
            · rw [descend_cons, hX]
              exact d1
        · left
          rw [findKeys_cons_lit part rest _ c hp ((hnew part hkey).trans hlit), hl]
          rfl
      | none =>
        cases hpar : mapGet n.children paramKey with
        | none =>
          rw [findKeys_cons_miss part rest n hp hlit hpar] at hk
          exact Option.noConfusion hk
        | some c =>
          rw [findKeys_cons_par part rest n c hp hlit hpar] at hk
          obtain ⟨l, hl, hks⟩ := map_cons_eq_some hk
          subst hks
          by_cases hkey : part = routeKey sp
          · right
            refine ⟨[], part, rest, [], n, _, rfl, hp, rfl, rfl, rfl, hlit, ?_⟩
            rw [addWalk_cons m2 h2 sp srest n hsp, Node.children_mk, hkey, mapGet_mapSet_same]
            rfl
          · have hlit2 := (hnew part hkey).trans hlit
            by_cases hpk : paramKey = routeKey sp
            · have hc : mapGet n.children (routeKey sp) = some c := by rw [← hpk]; exact hpar
              have hX := hhit c hc
              rw [← hpk] at hX
              rcases ih srest c l hrest hsr hl with g | g
              · left
                rw [findKeys_cons_par part rest _ _ hp hlit2 hX, g]
                rfl
              · right
                obtain ⟨pre, pt, rs, ksp, c0, c1, e, hpt, fk, d0, d1, l0, l1⟩ := g
                refine ⟨part :: pre, pt, rs, paramKey :: ksp, c0, c1, by rw [e]; rfl, hpt,
                  ?_, ?_, ?_, l0, l1⟩
                · rw [findKeys_cons_par part pre n c hp hlit hpar, fk]
                  rfl
                · rw [descend_cons, hpar]
                  exact d0
                · rw [descend_cons, hX]
                  exact d1
            · left
              rw [findKeys_cons_par part rest _ c hp hlit2 ((hnew paramKey hpk).trans hpar), hl]
              rfl

/-- C18 (amended): for every router, a present lookup stays present after any
further `AddRoute` with a present handler whenever the lookup still resolves to
the same trie position; and it still does so (the lookup stays present) unless
the new route created a literal edge for a part of the path at a node where the
lookup had to follow the parameter edge. -/
theorem lookup_monotone_unless_shadowed (r : Router Env W) (m p : Str)
    (hpres : (FindHandler r m p).1.isSome = true)
    (m2 p2 : Str) (h2 : HandlerFunc Env W) (hh : h2.isSome = true) :
    (findKeys (segments p) (AddRoute r m2 p2 h2).root = findKeys (segments p) r.root →
      (FindHandler (AddRoute r m2 p2 h2) m p).1.isSome = true) ∧
    ((FindHandler (AddRoute r m2 p2 h2) m p).1.isSome = true ∨
      Shadowed r.root (AddRoute r m2 p2 h2).root (segments p)) := by
  obtain ⟨ks, n, hk, _, hd, hs⟩ := FindHandler_present_serves r m p hpres
  obtain ⟨n2, hd2, hs2⟩ := descend_addWalk_serves
    (fun h : HandlerFunc Env W => h.isSome = true) m ks r.root n hd hs m2
    (wrapWithMiddleware r h2) (segments (Join [r.groupBasePath, p2]))
    (wrapWithMiddleware_isSome r h2 hh)
  have key : findKeys (segments p) (AddRoute r m2 p2 h2).root = some ks →
      (FindHandler (AddRoute r m2 p2 h2) m p).1.isSome = true := by
    intro hk2
    obtain ⟨n3, hw3, hd3⟩ :=
      (findWalk_findKeys (segments p) (AddRoute r m2 p2 h2).root []).2 ks hk2
    rw [AddRoute_root, hd2] at hd3
    rw [← Option.some.inj hd3] at hw3
    exact FindHandler_present_of_walk _ m p n2 hw3 hs2
  constructor
  · intro heq
    apply key
    rw [heq]
    exact hk
  · rcases findKeys_addWalk_or_shadowed m2 (wrapWithMiddleware r h2) (segments p)
      (segments (Join [r.groupBasePath, p2])) r.root ks (mem_segments_ne_nil p)
      (mem_segments_ne_nil _) hk with g | g
    · exact Or.inl (key g)
    · exact Or.inr g

/-- C18 (witness): after `GET /users/:id`, the lookup of `GET /users/42` is
present, and it stays present when `POST /users/me` is registered. -/
theorem lookup_monotone_unless_shadowed_witness :
    (FindHandler (AddRoute (AddRoute (NewRouter : Router Unit Nat) "GET".toList
      "/users/:id".toList idleHandler) "POST".toList "/users/me".toList otherHandler)
      "GET".toList "/users/42".toList).1.isSome = true :=
  (lookup_monotone_unless_shadowed
    (AddRoute (NewRouter : Router Unit Nat) "GET".toList "/users/:id".toList idleHandler)
    "GET".toList "/users/42".toList (by decide) "POST".toList "/users/me".toList otherHandler
    rfl).1 (by decide)

end Monotone

/-! ## Duplicate registration, by trie position -/

section DuplicateFrame

variable {Env W : Type}

theorem lookupResult_end {H : Type} (m : Str) (h : Option H) (n0 : Node (Option H))
    (params : HandlerParams) :
    lookupResult m (some (addWalk m h [] n0), params) = (h, params) := by
  rw [addWalk_nil]
  simp [lookupResult, mapGet_mapSet_same]

theorem lookupResult_inner {H : Type} (m m2 : Str) (h1 h2 : Option H) (sp : Str)
    (srest : List Str) (n0 : Node (Option H)) (params : HandlerParams) (hsp : sp ≠ []) :
    lookupResult m2 (some (addWalk m h2 (sp :: srest) n0), params) =
      lookupResult m2 (some (addWalk m h1 (sp :: srest) n0), params) := by
  rw [addWalk_cons m h1 sp srest n0 hsp, addWalk_cons m h2 sp srest n0 hsp]
  simp [lookupResult]

theorem addWalk_cons_child {H : Type} (m : Str) (part : Str) (rest : List Str) (n : Node H)
    (hp : part ≠ []) :
    ∃ c0 : Node H, ∀ h : H, addWalk m h (part :: rest) n =
      Node.mk (mapSet n.children (routeKey part) (addWalk m h rest c0)) n.isEnd n.handlers
        (if hasColon part then part.tail else n.parameterName) :=
  ⟨_, fun h => addWalk_cons m h part rest n hp⟩

theorem map_cons_some_iff (k : Str) (o : Option (List Str)) (l : List Str) :
    o.map (fun x => k :: x) = some (k :: l) ↔ o = some l := by
  cases o with
  | none => simp
  | some x => simp

theorem map_cons_ne_some (k k2 : Str) (o : Option (List Str)) (l : List Str) (hne : k ≠ k2) :
    o.map (fun x => k :: x) ≠ some (k2 :: l) := by
  cases o with
  | none => simp
  | some x =>
    intro h
    simp only [Option.map_some', Option.some.injEq, List.cons.injEq] at h
    exact hne h.1

/-- Two tries that come from the same trie by the walk of `AddRoute` over the
same parts for the same method, with the handlers `h1` and `h2`: a lookup
resolves to the same key path and binds the same parameters in both; when it
resolves to the key path of the walk it returns `h1` in the first and `h2` in
the second; otherwise it returns the same result in both, for every method. -/
theorem lookup_addWalk_pair {H : Type} (m : Str) (h1 h2 : Option H) (q s : List Str)
    (n0 : Node (Option H)) (params : HandlerParams) (hs : ∀ x, x ∈ s → x ≠ []) :
    findKeys q (addWalk m h2 s n0) = findKeys q (addWalk m h1 s n0) ∧
    (findWalk q (addWalk m h2 s n0) params).2 = (findWalk q (addWalk m h1 s n0) params).2 ∧
    (findKeys q (addWalk m h1 s n0) = some (s.map routeKey) →
      (lookupResult m (findWalk q (addWalk m h1 s n0) params)).1 = h1 ∧
      (lookupResult m (findWalk q (addWalk m h2 s n0) params)).1 = h2) ∧
    (findKeys q (addWalk m h1 s n0) ≠ some (s.map routeKey) →
      ∀ m2, lookupResult m2 (findWalk q (addWalk m h2 s n0) params) =
        lookupResult m2 (findWalk q (addWalk m h1 s n0) params)) := by
  induction q generalizing s n0 params with
  | nil =>
    refine ⟨rfl, rfl, ?_, ?_⟩
    · intro hk
      cases s with
      | nil =>
        simp only [findWalk]
        rw [lookupResult_end, lookupResult_end]
        exact ⟨rfl, rfl⟩
      | cons sp srest => simp [findKeys] at hk
    · intro hk m2
      cases s with
      | nil => simp [findKeys] at hk
      | cons sp srest =>
        simp only [findWalk]
        exact lookupResult_inner m m2 h1 h2 sp srest n0 params (hs sp (by simp))
  | cons part rest ih =>
    by_cases hp : part = []
    · subst hp
      have e1 : ∀ c : Node (Option H), findKeys ([] :: rest) c = findKeys rest c := by
        intro c
        simp [findKeys]
      have e2 : ∀ (c : Node (Option H)) (ps : HandlerParams),
          findWalk ([] :: rest) c ps = findWalk rest c ps := by
        intro c ps
        simp [findWalk]
      rw [e1, e1, e2, e2]
      exact ih s n0 params hs
    · cases s with
      | nil =>
        have hc : (addWalk m h2 [] n0).children = (addWalk m h1 [] n0).children := by
          rw [addWalk_nil, addWalk_nil]
          rfl
        have ek := findKeys_cons_children part rest _ _ hp hc
        have ew := findWalk_cons_children part rest _ _ params hp hc
        refine ⟨ek, by rw [ew], ?_, ?_⟩
        · intro hk
          exfalso
          have hc1 : (addWalk m h1 [] n0).children = n0.children := by
            rw [addWalk_nil]
            rfl
          rw [findKeys_cons_children part rest _ n0 hp hc1] at hk
          simp only [List.map_nil] at hk
          cases hlit : mapGet n0.children part with
          | some c =>
            rw [findKeys_cons_lit part rest n0 c hp hlit] at hk
            obtain ⟨l, _, hl⟩ := map_cons_eq_some hk
            exact List.noConfusion hl
          | none =>
            cases hpar : mapGet n0.children paramKey with
            | some c =>
              rw [findKeys_cons_par part rest n0 c hp hlit hpar] at hk
              obtain ⟨l, _, hl⟩ := map_cons_eq_some hk
              exact List.noConfusion hl
            | none =>
              rw [findKeys_cons_miss part rest n0 hp hlit hpar] at hk
              exact Option.noConfusion hk
        · intro _ m2
          rw [ew]
      | cons sp srest =>
        have hsp : sp ≠ [] := hs sp (by simp)
        have hsr : ∀ x, x ∈ srest → x ≠ [] := fun x hx => hs x (List.mem_cons_of_mem _ hx)
        obtain ⟨c0, hc0⟩ := addWalk_cons_child m sp srest n0 hsp
        have hother : ∀ (h : Option H) (x : Str), x ≠ routeKey sp →
            mapGet (addWalk m h (sp :: srest) n0).children x = mapGet n0.children x := by
          intro h x hx
          rw [hc0 h, Node.children_mk, mapGet_mapSet_ne _ _ _ _ hx]
        have hhit : ∀ (h : Option H),
            mapGet (addWalk m h (sp :: srest) n0).children (routeKey sp) =
              some (addWalk m h srest c0) := by
          intro h
          rw [hc0 h, Node.children_mk, mapGet_mapSet_same]
        have hname := parameterName_addWalk m h1 h2 srest c0 hsr
        simp only [List.map_cons]
        by_cases hkey : part = routeKey sp
        · have g1 : mapGet (addWalk m h1 (sp :: srest) n0).children part =
              some (addWalk m h1 srest c0) := by
            rw [hkey]
            exact hhit h1
          have g2 : mapGet (addWalk m h2 (sp :: srest) n0).children part =
              some (addWalk m h2 srest c0) := by
            rw [hkey]
            exact hhit h2
          obtain ⟨i1, i2, i3, i4⟩ := ih srest c0 params hsr
          rw [findKeys_cons_lit part rest _ _ hp g1, findKeys_cons_lit part rest _ _ hp g2,
            findWalk_cons_lit part rest _ _ params hp g1,
            findWalk_cons_lit part rest _ _ params hp g2, ← hkey]
          refine ⟨by rw [i1], i2, ?_, ?_⟩
          · intro hk
            exact i3 ((map_cons_some_iff _ _ _).1 hk)
          · intro hk
            exact i4 (fun hk2 => hk ((map_cons_some_iff _ _ _).2 hk2))
        · cases hlit : mapGet n0.children part with
          | some c =>
            have g1 := (hother h1 part hkey).trans hlit
            have g2 := (hother h2 part hkey).trans hlit
            rw [findKeys_cons_lit part rest _ _ hp g1, findKeys_cons_lit part rest _ _ hp g2,
              findWalk_cons_lit part rest _ _ params hp g1,
              findWalk_cons_lit part rest _ _ params hp g2]
            refine ⟨rfl, rfl, ?_, ?_⟩
            · intro hk
              exact absurd hk (map_cons_ne_some _ _ _ _ hkey)
            · intro _ _
              rfl
          | none =>
            have l1 := (hother h1 part hkey).trans hlit
            have l2 := (hother h2 part hkey).trans hlit
            by_cases hpk : paramKey = routeKey sp
            · have g1 : mapGet (addWalk m h1 (sp :: srest) n0).children paramKey =
                  some (addWalk m h1 srest c0) := by
                rw [hpk]
                exact hhit h1
              have g2 : mapGet (addWalk m h2 (sp :: srest) n0).children paramKey =
                  some (addWalk m h2 srest c0) := by
                rw [hpk]
                exact hhit h2
              obtain ⟨i1, i2, i3, i4⟩ := ih srest c0
                (mapSet params (addWalk m h1 srest c0).parameterName part) hsr
              rw [findKeys_cons_par part rest _ _ hp l1 g1,
                findKeys_cons_par part rest _ _ hp l2 g2,
                findWalk_cons_par part rest _ _ params hp l1 g1,
                findWalk_cons_par part rest _ _ params hp l2 g2, ← hname, ← hpk]
              refine ⟨by rw [i1], i2, ?_, ?_⟩
              · intro hk
                exact i3 ((map_cons_some_iff _ _ _).1 hk)
              · intro hk
                exact i4 (fun hk2 => hk ((map_cons_some_iff _ _ _).2 hk2))
            · cases hpar : mapGet n0.children paramKey with
              | some c =>
                have g1 := (hother h1 paramKey hpk).trans hpar
                have g2 := (hother h2 paramKey hpk).trans hpar
                rw [findKeys_cons_par part rest _ _ hp l1 g1,
                  findKeys_cons_par part rest _ _ hp l2 g2,
                  findWalk_cons_par part rest _ _ params hp l1 g1,
                  findWalk_cons_par part rest _ _ params hp l2 g2]
                refine ⟨rfl, rfl, ?_, ?_⟩
                · intro hk
                  exact absurd hk (map_cons_ne_some _ _ _ _ hpk)
                · intro _ _
                  rfl
              | none =>
                have g1 := (hother h1 paramKey hpk).trans hpar
                have g2 := (hother h2 paramKey hpk).trans hpar
                rw [findKeys_cons_miss part rest _ hp l1 g1,
                  findKeys_cons_miss part rest _ hp l2 g2,
                  findWalk_cons_miss part rest _ params hp l1 g1,
                  findWalk_cons_miss part rest _ params hp l2 g2]
                refine ⟨rfl, rfl, ?_, ?_⟩
                · intro hk
                  exact Option.noConfusion hk
                · intro _ _
                  rfl

theorem lookupResult_snd_pair {H : Type} (m : Str)
    (x : Option (Node (Option H)) × HandlerParams) : (lookupResult m x).2 = x.2 := by
  obtain ⟨f, ps⟩ := x
  exact lookupResult_snd m f ps

/-- C12 (amended): registering the same method and path twice in the same scope
gives the state of the second registration alone.  Every lookup resolves to the
same trie position and binds the same parameters as after the first
registration only; other methods get the same result at every path; for the
method itself, every path that resolves to the position of the route (not only
the registered path) returns the second (wrapped) handler where it returned the
first, and every path that resolves elsewhere or misses gets the same result;
the wrapped handler is the raw one when no middleware is in effect; and at top
level with no middleware, for a path without `.` and `..` parts, the lookup of
the path itself returns the second handler. -/
theorem duplicate_registration (r : Router Env W) (m p : Str) (h1 h2 : HandlerFunc Env W) :
    AddRoute (AddRoute r m p h1) m p h2 = AddRoute r m p h2 ∧
    (Reachable r → r.groupBasePath = [] → r.globalMiddleware = [] → r.groupMiddleware = [] →
      (∀ x, x ∈ segments p → plainPart x) →
      (FindHandler (AddRoute (AddRoute r m p h1) m p h2) m p).1 = h2) ∧
    (∀ m2 p2, m2 ≠ m →
      FindHandler (AddRoute (AddRoute r m p h1) m p h2) m2 p2 =
        FindHandler (AddRoute r m p h1) m2 p2) ∧
    (∀ p2,
      findKeys (segments p2) (AddRoute (AddRoute r m p h1) m p h2).root =
        findKeys (segments p2) (AddRoute r m p h1).root ∧
      (FindHandler (AddRoute (AddRoute r m p h1) m p h2) m p2).2 =
        (FindHandler (AddRoute r m p h1) m p2).2 ∧
      (findKeys (segments p2) (AddRoute r m p h1).root =
          some ((segments (Join [r.groupBasePath, p])).map routeKey) →
        (FindHandler (AddRoute r m p h1) m p2).1 = wrapWithMiddleware r h1 ∧
        (FindHandler (AddRoute (AddRoute r m p h1) m p h2) m p2).1 =
          wrapWithMiddleware r h2) ∧
      (findKeys (segments p2) (AddRoute r m p h1).root ≠
          some ((segments (Join [r.groupBasePath, p])).map routeKey) →
        FindHandler (AddRoute (AddRoute r m p h1) m p h2) m p2 =
          FindHandler (AddRoute r m p h1) m p2)) ∧
    (r.globalMiddleware = [] → r.groupMiddleware = [] →
      wrapWithMiddleware r h1 = h1 ∧ wrapWithMiddleware r h2 = h2) := by
  have hstate : AddRoute (AddRoute r m p h1) m p h2 = AddRoute r m p h2 := by
    simp only [AddRoute, wrapWithMiddleware, addWalk_addWalk]
  have hR : SameUpTo m (wrapWithMiddleware r h1) (wrapWithMiddleware r h2)
      (AddRoute r m p h1).root (AddRoute r m p h2).root :=
    Or.inr ⟨segments (Join [r.groupBasePath, p]), r.root, mem_segments_ne_nil _, rfl, rfl⟩
  refine ⟨hstate, ?_, ?_, ?_, ?_⟩
  · intro hr htop hg hq hp
    rw [hstate]
    exact FindHandler_AddRoute_exact r (Reachable_KeysOK r hr) m p h2 htop hg hq hp
  · intro m2 p2 hm
    rw [hstate, lookupResult_findWalk, lookupResult_findWalk]
    exact ((lookup_SameUpTo m _ _ (segments p2) _ _ hR).1 m2 hm).symm
  · intro p2
    rw [hstate]
    obtain ⟨g1, g2, g3, g4⟩ := lookup_addWalk_pair m (wrapWithMiddleware r h1)
      (wrapWithMiddleware r h2) (segments p2) (segments (Join [r.groupBasePath, p])) r.root []
      (mem_segments_ne_nil _)
    simp only [lookupResult_findWalk, AddRoute_root, lookupResult_snd_pair]
    exact ⟨g1, g2, g3, fun hne => g4 hne m⟩
  · intro hg hq
    exact ⟨wrapWithMiddleware_none r h1 hg hq, wrapWithMiddleware_none r h2 hg hq⟩

/-- C12 (witness): `GET /users/:id` registered twice on a fresh router; the
lookups of `/users/:id` and of `/users/42` return the second handler. -/
theorem duplicate_registration_witness :
    (FindHandler (AddRoute (AddRoute (NewRouter : Router Unit Nat) "GET".toList
      "/users/:id".toList idleHandler) "GET".toList "/users/:id".toList otherHandler)
      "GET".toList "/users/:id".toList).1 = otherHandler ∧
    (FindHandler (AddRoute (AddRoute (NewRouter : Router Unit Nat) "GET".toList
      "/users/:id".toList idleHandler) "GET".toList "/users/:id".toList otherHandler)
      "GET".toList "/users/42".toList).1 = otherHandler :=
  ⟨(duplicate_registration (NewRouter : Router Unit Nat) "GET".toList "/users/:id".toList
      idleHandler otherHandler).2.1 Reachable.new rfl rfl rfl (by decide),
    (((duplicate_registration (NewRouter : Router Unit Nat) "GET".toList "/users/:id".toList
      idleHandler otherHandler).2.2.2.1 "/users/42".toList).2.2.1 (by decide)).2⟩

end DuplicateFrame

end GoatRouter
